import Mathlib

/-!
Verification of the edge-sampling subsystem of `src/edge.cpp` (differentiable
renderer, visibility-discontinuity gradient estimation).

The development shallowly embeds the data model and the operations of the
source file: machine floating point numbers are modelled as real numbers,
C structs become Lean structures, stateful output buffers become explicit
state records, and bounded loops become fuel-indexed recursion with the
exact fuel of the source.  External collaborators that are declared
out-of-scope by the design document (camera projection, LTC lookup tables,
`is_silhouette`, sphere/box intersection) enter as explicit parameters or
are modelled from the specification, each marked by a doc comment.
-/

noncomputable section

/-- Three-dimensional real vector, modelling `Vector3` of the source. -/
structure Vec3 where
  x : ℝ
  y : ℝ
  z : ℝ
deriving DecidableEq

/-- Two-dimensional real vector, modelling `Vector2` of the source. -/
structure Vec2 where
  x : ℝ
  y : ℝ
deriving DecidableEq

instance : Add Vec3 := ⟨fun a b => ⟨a.x + b.x, a.y + b.y, a.z + b.z⟩⟩

instance : Sub Vec3 := ⟨fun a b => ⟨a.x - b.x, a.y - b.y, a.z - b.z⟩⟩

instance : Neg Vec3 := ⟨fun a => ⟨-a.x, -a.y, -a.z⟩⟩

instance : SMul ℝ Vec3 := ⟨fun c a => ⟨c * a.x, c * a.y, c * a.z⟩⟩

instance : Add Vec2 := ⟨fun a b => ⟨a.x + b.x, a.y + b.y⟩⟩

instance : Sub Vec2 := ⟨fun a b => ⟨a.x - b.x, a.y - b.y⟩⟩

instance : SMul ℝ Vec2 := ⟨fun c a => ⟨c * a.x, c * a.y⟩⟩

/-- Zero vector. -/
def v3zero : Vec3 := ⟨0, 0, 0⟩

/-- Dot product of two 3-vectors. -/
def dot3 (a b : Vec3) : ℝ := a.x * b.x + a.y * b.y + a.z * b.z

/-- Cross product of two 3-vectors. -/
def cross3 (a b : Vec3) : Vec3 :=
  ⟨a.y * b.z - a.z * b.y, a.z * b.x - a.x * b.z, a.x * b.y - a.y * b.x⟩

/-- Squared euclidean length (`length_squared` of the source). -/
def lengthSq3 (a : Vec3) : ℝ := dot3 a a

/-- Euclidean length (`length` of the source). -/
def norm3 (a : Vec3) : ℝ := Real.sqrt (lengthSq3 a)

/-- Normalization `v / length(v)` (`normalize` of the source). -/
def normalize3 (a : Vec3) : Vec3 := (1 / norm3 a) • a

/-- Euclidean distance between two points (`distance` of the source). -/
def dist3 (a b : Vec3) : ℝ := norm3 (a - b)

/-- Squared distance (`distance_squared` of the source). -/
def distSq3 (a b : Vec3) : ℝ := lengthSq3 (a - b)

/-- A 3×3 matrix stored as three rows, modelling `Matrix3x3` of the source. -/
structure Mat3 where
  r0 : Vec3
  r1 : Vec3
  r2 : Vec3

/-- Matrix–vector product. -/
def mulVec (m : Mat3) (v : Vec3) : Vec3 := ⟨dot3 m.r0 v, dot3 m.r1 v, dot3 m.r2 v⟩

/-- The identity matrix. -/
def idMat3 : Mat3 := ⟨⟨1, 0, 0⟩, ⟨0, 1, 0⟩, ⟨0, 0, 1⟩⟩

/-- Mesh edge, modelling `struct Edge` of `edge.h`: shape id, the two vertex
indices with canonical ordering `v0 < v1`, and the up to two adjacent
triangle indices (`f1 = -1` for boundary edges). -/
structure Edge where
  shape_id : ℤ
  v0 : ℤ
  v1 : ℤ
  f0 : ℤ
  f1 : ℤ
deriving DecidableEq

/-- Modelled from the spec: the default-constructed `Edge` of `edge.h` (not
under `src/`); an invalid record is recognized downstream by
`edge.shape_id < 0` (lines 541 and 1465 of the source), so default fields
are `-1`. -/
def defaultEdge : Edge := ⟨-1, -1, -1, -1, -1⟩

/-- Ray–intersection result, modelling `struct Intersection`: the shape and
triangle hit by a ray. -/
structure Intersection where
  shape_id : ℤ
  tri_id : ℤ
deriving DecidableEq

/-- Shading point, modelling the fields of `SurfacePoint` that the edge
sampling code reads: position, geometric normal and shading normal
(`shading_frame[2]`). -/
structure SurfacePoint where
  position : Vec3
  geom_normal : Vec3
  shading_n : Vec3

/-! ### Distribution builder (claim C5)

`EdgeSampler::EdgeSampler` (lines 160–186 of the source) reduces the weight
array to a total, divides every weight by the total
(`thrust::transform` with `thrust::divides`), and takes an exclusive prefix
sum (`thrust::transform_exclusive_scan` with initial value 0). -/

/-- Total weight: the `thrust::reduce` with `thrust::plus` over the weight
array (indices `0..n-1`). -/
def totalWeight (w : ℕ → ℝ) (n : ℕ) : ℝ := ∑ j ∈ Finset.range n, w j

/-- Normalized probability mass: every weight divided by the total
(`thrust::transform` with `thrust::divides`). -/
def edgesPmf (w : ℕ → ℝ) (n : ℕ) (i : ℕ) : ℝ := w i / totalWeight w n

/-- Exclusive prefix sum of the pmf
(`thrust::transform_exclusive_scan` with identity transform and initial
value `0`). -/
def edgesCdf (w : ℕ → ℝ) (n : ℕ) (i : ℕ) : ℝ := ∑ j ∈ Finset.range i, edgesPmf w n j

/-! ### Secondary edge weighter (claim C7) -/

/-- Modelled from the spec: `compute_exterior_dihedral_angle` (`shape.h`, not
under `src/`).  The exterior dihedral angle of a two-faced edge is π minus
the interior dihedral angle, i.e. the angle between the two adjacent face
normals, clamped into the domain of `arccos`; a near-planar edge therefore
has near-zero exterior angle, matching the source comment at lines 100–101
("We use the length * (pi - dihedral angle) to sample the edges / If the
dihedral angle is large, it's less likely that the edge would be a
silhouette").  A boundary edge (`f1 = -1`), being a silhouette from
everywhere, gets the maximal angle π. -/
def exteriorDihedralAngle (faceNormal : ℤ → Vec3) (e : Edge) : ℝ :=
  if e.f1 = -1 then Real.pi
  else Real.arccos (max (-1) (min 1 (dot3 (faceNormal e.f0) (faceNormal e.f1))))

/-- The functor `secondary_edge_weighter` (lines 97–112 of the source) for
one edge: `secondary_edge_weight = distance(v0, v1) * exterior_dihedral`.
The vertex-position accessor (`get_v0`/`get_v1` composed with the shape
store) is abstracted as `pos`. -/
def secondaryEdgeWeight (pos : ℤ → Vec3) (faceNormal : ℤ → Vec3) (e : Edge) : ℝ :=
  dist3 (pos e.v0) (pos e.v1) * exteriorDihedralAngle faceNormal e

/-! ### Primary-edge post-intersection pass (claim C9) -/

/-- The entry point `update_primary_edge_weights` (lines 511–525 of the
source): its whole body, the `parallel_for` over
`primary_edge_weights_updater`, is commented out ("XXX: Disable this at the
moment. Not sure if this is more robust or not."), so the pass returns the
`throughputs` and `channel_multipliers` buffers unchanged. -/
def update_primary_edge_weights (throughputs : List Vec3)
    (channel_multipliers : List ℝ) : List Vec3 × List ℝ :=
  (throughputs, channel_multipliers)

/-- Primary edge sample record (`PrimaryEdgeRecord` of `edge.h`): the chosen
edge and the screen-space point sampled on it. -/
structure PrimaryEdgeRecord where
  edge : Edge
  edge_pt : Vec2

/-- One sample of the disabled functor `primary_edge_weights_updater`
(lines 481–509 of the source, present but never invoked): if neither probe
intersection is connected to the sampled edge (same shape and one of the two
adjacent faces), the two throughputs and the per-sample channel multipliers
are zeroed; otherwise they are kept. -/
def primaryEdgeWeightsUpdaterStep (edge_record : PrimaryEdgeRecord)
    (isect_upper isect_lower : Intersection)
    (thr_upper thr_lower : Vec3) (chans : List ℝ) :
    Vec3 × Vec3 × List ℝ :=
  let upper_connected := isect_upper.shape_id = edge_record.edge.shape_id ∧
    (isect_upper.tri_id = edge_record.edge.f0 ∨ isect_upper.tri_id = edge_record.edge.f1)
  let lower_connected := isect_lower.shape_id = edge_record.edge.shape_id ∧
    (isect_lower.tri_id = edge_record.edge.f0 ∨ isect_lower.tri_id = edge_record.edge.f1)
  if ¬ upper_connected ∧ ¬ lower_connected then
    (v3zero, v3zero, chans.map (fun _ => (0 : ℝ)))
  else (thr_upper, thr_lower, chans)

/-! ### Secondary edge weights updater (claim C10) -/

/-- Secondary edge sample record (`SecondaryEdgeRecord` of `edge.h`): the
chosen edge, the sampled point (in the shading frame image under `m`) and
the transformed tangent `m * wt`, both kept for Jacobian computation. -/
structure SecondaryEdgeRecord where
  edge : Edge
  edge_pt : Vec3
  mwt : Vec3

/-- `intersect_jacobian` (lines 1368–1394 of the source): the derivative of
the ray–plane intersection point with respect to the line parameter. -/
def intersect_jacobian (org dir p n l : Vec3) : Vec3 :=
  let dir_dot_n := dot3 dir n
  if |dir_dot_n| < 1e-10 then v3zero
  else
    let d := -(dot3 p n)
    let t := -((dot3 org n) + d) / dir_dot_n
    if t ≤ 0 then v3zero
    else t • (l - (dot3 l n / dot3 dir n) • dir)

/-- `secondary_edge_weights_updater::update_throughput` (lines 1398–1455 of
the source) for one ray.  `valid` is the value of `edge_isect.valid()`
(`intersection.h`, not under `src/`: the probe ray hit a surface), and
`has_envmap` is whether `scene.envmap` is non-null.  `v0`/`v1` are the
world-space endpoints of the recorded edge (`get_v0`/`get_v1`). -/
def update_throughput (valid has_envmap : Bool) (v0 v1 : Vec3)
    (edge_surface_point shading_point : SurfacePoint)
    (edge_record : SecondaryEdgeRecord) (edge_throughput : Vec3) : Vec3 :=
  if valid then
    -- Hit a surface
    let dir := edge_surface_point.position - shading_point.position
    let dist_sq := lengthSq3 dir
    if dist_sq < 1e-8 then v3zero -- likely a self-intersection
    else
      let n_dir := (1 / Real.sqrt dist_sq) • dir
      let geometry_term := |dot3 edge_surface_point.geom_normal n_dir| / dist_sq
      let isect_jacobian := intersect_jacobian shading_point.position edge_record.edge_pt
        edge_surface_point.position edge_surface_point.geom_normal edge_record.mwt
      let half_plane_normal := normalize3 (cross3 (v0 - shading_point.position)
        (v1 - shading_point.position))
      let line_jacobian := norm3 isect_jacobian /
        norm3 (cross3 edge_surface_point.geom_normal half_plane_normal)
      let d0 := v0 - shading_point.position
      let d1 := v1 - shading_point.position
      let dirac_jacobian := norm3 (cross3 d0 d1)
      let w := line_jacobian / dirac_jacobian
      (geometry_term * w) • edge_throughput
  else if has_envmap then
    -- Hit an environment light
    let p := shading_point.position
    let d0 := v0 - p
    let d1 := v1 - p
    let dirac_jacobian := norm3 (cross3 d0 d1)
    let line_jacobian := 1 / lengthSq3 (edge_record.edge_pt - p)
    let w := line_jacobian / dirac_jacobian
    w • edge_throughput
  else edge_throughput

/-! ### Edge-tree importance (claim C3) -/

/-- Axis-aligned bounding box (`AABB3` of `aabb.h`). -/
structure AABB3 where
  p_min : Vec3
  p_max : Vec3

/-- Modelled from the spec: `corner` of `aabb.h` (not under `src/`), corner
`i ∈ 0..7` of an axis-aligned box, one bit of `i` selecting min or max per
axis.  The claims quantify over all eight corners, so the bit convention is
immaterial. -/
def corner (b : AABB3) (i : ℕ) : Vec3 :=
  ⟨if i % 2 = 0 then b.p_min.x else b.p_max.x,
   if i / 2 % 2 = 0 then b.p_min.y else b.p_max.y,
   if i / 4 % 2 = 0 then b.p_min.z else b.p_max.z⟩

/-- Sphere (`Sphere` of `sphere.h`): center and radius. -/
structure Sphere where
  center : Vec3
  radius : ℝ

/-- Modelled from the spec: `compute_bounding_sphere` of `aabb.h` (not under
`src/`): the sphere centered at the box midpoint whose radius is half the
diagonal. -/
def compute_bounding_sphere (b : AABB3) : Sphere :=
  ⟨(1 / 2 : ℝ) • (b.p_min + b.p_max), norm3 (b.p_max - b.p_min) / 2⟩

/-- Modelled from the spec: `inside(Sphere, point)` of `sphere.h` (not under
`src/`): the point is strictly within the radius. -/
def insideSphere (s : Sphere) (p : Vec3) : Bool :=
  decide (distSq3 p s.center < s.radius ^ 2)

/-- Spatial-bound edge-tree node (`BVHNode3`): an axis-aligned bound and the
precomputed weighted total edge length. -/
structure BVHNode3 where
  bounds : AABB3
  weighted_total_length : ℝ

/-- Directional-bound edge-tree node (`BVHNode6`): a position bound, a
directional bound, and the weighted total edge length. -/
structure BVHNode6 where
  p_min : Vec3
  p_max : Vec3
  d_min : Vec3
  d_max : Vec3
  weighted_total_length : ℝ

/-- `secondary_edge_sampler::is_bound_below_surface` (lines 831–841 of the
source): true when every one of the eight corners of the bound has
non-positive dot product with the shading normal relative to the shading
position (the loop returns `false` at the first corner strictly above the
tangent plane). -/
def is_bound_below_surface (bounds : AABB3) (p : SurfacePoint) : Bool :=
  (List.range 8).all fun i =>
    decide (dot3 p.shading_n (corner bounds i - p.position) ≤ 0)

/-- `secondary_edge_sampler::importance` for `BVHNode3` (lines 843–861 of
the source).  The LTC sphere integral (lines 737–829), whose value depends
on the external lookup tables of `ltc.inc`/`ltc_sphere.inc`, is abstracted
as the parameter `ltcInt`; the claims settled here are insensitive to its
value. -/
def importance3 (ltcInt : Sphere → SurfacePoint → ℝ) (node : BVHNode3)
    (p : SurfacePoint) : ℝ :=
  if is_bound_below_surface node.bounds p then 0
  else
    let b_sphere := compute_bounding_sphere node.bounds
    let brdf_term := if insideSphere b_sphere p.position then Real.pi
      else ltcInt b_sphere p
    brdf_term * node.weighted_total_length /
      max (distSq3 b_sphere.center p.position) 1e-6

/-- `secondary_edge_sampler::importance` for `BVHNode6` (lines 863–889 of
the source).  The Olson–Zhang directional test `intersect(Sphere, AABB3)`
(`sphere.h`, not under `src/`) is abstracted as `sphereBoxIntersect`. -/
def importance6 (ltcInt : Sphere → SurfacePoint → ℝ)
    (sphereBoxIntersect : Sphere → AABB3 → Bool) (cam_org : Vec3)
    (node : BVHNode6) (p : SurfacePoint) : ℝ :=
  let p_bounds : AABB3 := ⟨node.p_min, node.p_max⟩
  if is_bound_below_surface p_bounds p then 0
  else
    let d_bounds : AABB3 := ⟨node.d_min, node.d_max⟩
    if ¬ sphereBoxIntersect ⟨(1 / 2 : ℝ) • (p.position + cam_org),
        dist3 p.position cam_org / 2⟩ d_bounds then 0
    else
      let b_sphere := compute_bounding_sphere p_bounds
      let brdf_term := if insideSphere b_sphere p.position then Real.pi
        else ltcInt b_sphere p
      brdf_term * node.weighted_total_length /
        max (distSq3 b_sphere.center p.position) 1e-6

/-! ### Edge-tree descent (claim C2)

`secondary_edge_sampler::sample_edge` (lines 891–977 of the source).  A
well-formed tree node either is a leaf (`edge_id != -1`, both children
null) or an interior node (`edge_id == -1`, both children non-null); the
tree is modelled by an inductive type whose constructors are exactly these
two shapes, and `WFTree` records the leaf condition `edge_id ≠ -1` that the
source asserts.  For a fixed query (shading point and inverse LTC
transform) the node importance is a function of the node alone, so the
descent is parameterized by an arbitrary `imp : BVHTree → ℝ`. -/

/-- Edge-tree shape: leaf with a terminal `edge_id`, or interior node with
two children. -/
inductive BVHTree where
  | leaf (edge_id : ℤ) : BVHTree
  | node (c0 c1 : BVHTree) : BVHTree

/-- Well-formedness recorded by the source assertions: every leaf carries a
real edge id (`edge_id ≠ -1`). -/
def WFTree : BVHTree → Prop
  | .leaf id => id ≠ -1
  | .node c0 c1 => WFTree c0 ∧ WFTree c1

/-- `id` is the edge id of some leaf of the tree. -/
def IsLeafId : BVHTree → ℤ → Prop
  | .leaf id, i => id = i
  | .node c0 c1, i => IsLeafId c0 i ∨ IsLeafId c1 i

/-- The recursive tree descent `sample_edge(node, p, m_inv, sample, pmf)`
(lines 891–930 of the source), returning the pair of the returned edge id
and the in-out `pmf` accumulator. -/
def sampleEdgeNode (imp : BVHTree → ℝ) : BVHTree → ℝ → ℝ → ℤ × ℝ
  | .leaf id, _, pmf => (id, pmf)
  | .node c0 c1, sample, pmf =>
    let imp0 := imp c0
    let imp1 := imp c1
    if imp0 ≤ 0 ∧ imp1 ≤ 0 then (-1, pmf)
    else
      let prob_0 := imp0 / (imp0 + imp1)
      if sample < prob_0 then
        sampleEdgeNode imp c0 (sample * (imp0 + imp1) / imp0) (pmf * prob_0)
      else
        let prob_1 := 1 - prob_0
        sampleEdgeNode imp c1 ((sample * (imp0 + imp1) - imp0) / imp1) (pmf * prob_1)

/-- The root dispatch `sample_edge(edge_tree_roots, p, m_inv, sample, pmf)`
(lines 932–977 of the source).  A null root contributes importance 0; the
caller initializes `pmf = 0`, and the two root branches overwrite it with
the chosen root probability.  Descending into a null root would be a null
dereference in the source; that branch is unreachable for non-negative
importances and `sample ∈ [0,1)` and is mapped to the failure result. -/
def sampleEdgeRoots (imp : BVHTree → ℝ) (cs_root ncs_root : Option BVHTree)
    (sample : ℝ) : ℤ × ℝ :=
  let imp_cs := match cs_root with
    | some t => imp t
    | none => 0
  let imp_ncs := match ncs_root with
    | some t => imp t
    | none => 0
  if imp_cs ≤ 0 ∧ imp_ncs ≤ 0 then (-1, 0)
  else
    let prob_cs := imp_cs / (imp_cs + imp_ncs)
    if sample < prob_cs then
      match cs_root with
      | some t => sampleEdgeNode imp t (sample * (imp_cs + imp_ncs) / imp_cs) prob_cs
      | none => (-1, 0)
    else
      match ncs_root with
      | some t => sampleEdgeNode imp t ((sample * (imp_cs + imp_ncs) - imp_cs) / imp_ncs)
          (1 - prob_cs)
      | none => (-1, 0)

/-- The failure condition of the descent, mirroring its branch structure:
the descent from a node fails exactly when it reaches an interior node both
of whose children have importance ≤ 0. -/
def descentFails (imp : BVHTree → ℝ) : BVHTree → ℝ → Prop
  | .leaf _, _ => False
  | .node c0 c1, sample =>
    (imp c0 ≤ 0 ∧ imp c1 ≤ 0) ∨
    (let prob_0 := imp c0 / (imp c0 + imp c1)
     if sample < prob_0 then descentFails imp c0 (sample * (imp c0 + imp c1) / imp c0)
     else descentFails imp c1 ((sample * (imp c0 + imp c1) - imp c0) / imp c1))

/-- The failure condition of the root dispatch: both root importances ≤ 0,
or the descent into the chosen root fails. -/
def rootsFail (imp : BVHTree → ℝ) (cs_root ncs_root : Option BVHTree)
    (sample : ℝ) : Prop :=
  let imp_cs := match cs_root with
    | some t => imp t
    | none => 0
  let imp_ncs := match ncs_root with
    | some t => imp t
    | none => 0
  (imp_cs ≤ 0 ∧ imp_ncs ≤ 0) ∨
  (let prob_cs := imp_cs / (imp_cs + imp_ncs)
   if sample < prob_cs then
     match cs_root with
     | some t => descentFails imp t (sample * (imp_cs + imp_ncs) / imp_cs)
     | none => True
   else
     match ncs_root with
     | some t => descentFails imp t ((sample * (imp_cs + imp_ncs) - imp_cs) / imp_ncs)
     | none => True)

/-- `id` is a leaf id of one of the two (possibly null) roots. -/
def IsRootsLeafId (cs_root ncs_root : Option BVHTree) (i : ℤ) : Prop :=
  (∃ t, cs_root = some t ∧ IsLeafId t i) ∨ (∃ t, ncs_root = some t ∧ IsLeafId t i)

/-! ### Line-CDF inversion (claim C8)

The hybrid bisection/Newton loop of `secondary_edge_sampler::operator()`
(lines 1188–1213 of the source).  The loop body is replicated exactly: the
iterate is reset to the bracket midpoint when outside the bracket, the loop
breaks when the residual is below `1e-5` or at the 20th iteration
(`it == 19`), otherwise it narrows the bracket on the side of the residual
and takes a Newton step `l -= value / derivative`.  The fuel starts at 20
and `fuel = 1` corresponds to `it == 19`; the executed-iteration count is
returned alongside the final state. -/

/-- The iterate actually used by one loop iteration: the incoming `l` if it
lies in the bracket, else the bracket midpoint (lines 1197–1199). -/
def usedIterate (l lb ub : ℝ) : ℝ :=
  if lb ≤ l ∧ l ≤ ub then l else (lb + ub) / 2

/-- The refinement loop (lines 1196–1213): state is
`(l, lb, ub, iteration count)`. -/
def lineSolveLoop (f fp : ℝ → ℝ) (target : ℝ) :
    ℕ → ℝ → ℝ → ℝ → ℕ → ℝ × ℝ × ℝ × ℕ
  | 0, l, lb, ub, cnt => (l, lb, ub, cnt)
  | fuel + 1, l, lb, ub, cnt =>
    let l' := usedIterate l lb ub
    let value := f l' - target
    if |value| < 1e-5 ∨ fuel = 0 then (l', lb, ub, cnt + 1)
    else
      let lb' := if value > 0 then lb else l'
      let ub' := if value > 0 then l' else ub
      lineSolveLoop f fp target fuel (l' - value / fp l') lb' ub' (cnt + 1)

/-- The full inversion (lines 1190–1213): bracket initialized to the sorted
endpoints `l0`, `l1` (the `swap` at line 1193), iterate initialized to the
midpoint, 20 refinement iterations. -/
def lineSolve (f fp : ℝ → ℝ) (target l0 l1 : ℝ) : ℝ × ℝ × ℝ × ℕ :=
  let lb := min l0 l1
  let ub := max l0 l1
  lineSolveLoop f fp target 20 ((lb + ub) / 2) lb ub 0

/-! ### Resampled importance sampling candidate weight (claim C1)

The body of the per-candidate loop of `secondary_edge_sampler::operator()`
(lines 1051–1108 of the source).  For one candidate edge the code computes
`edge_weights[sample_id]`: zero unless the edge has positive global pmf, is
a silhouette from the shading point (`is_silhouette`, `shape.h`, not under
`src/`, abstracted as the boolean `is_sil`), is not rejected by the
`same_tri` test, is non-degenerate and reaches above the tangent plane; in
that case the weight is the clipped LTC line integral divided by the global
pmf.  The vertex positions `v0`, `v1` stand for
`get_v0(shapes, edge)` / `get_v1(shapes, edge)`. -/

/-- The closed-form LTC line integral `I(l)` (lines 1093–1096 of the
source) with closest-approach distance `d`, local-z of the closest point
`voz` and local-z of the tangent `wtz`. -/
def ltcLineI (d voz wtz l : ℝ) : ℝ :=
  (l / (d * (d * d + l * l)) + Real.arctan (l / d) / (d * d)) * voz +
  (l * l / (d * (d * d + l * l))) * wtz

/-- The `same_tri` rejection test exactly as written at lines 1065–1066 of
the source: it compares the edge's vertex indices `v0`, `v1` with the
intersected triangle index `tri_id`. -/
def sameTriTest (edge : Edge) (shading_isect : Intersection) : Prop :=
  edge.shape_id = shading_isect.shape_id ∧
  (edge.v0 = shading_isect.tri_id ∨ edge.v1 = shading_isect.tri_id)

instance (edge : Edge) (shading_isect : Intersection) :
    Decidable (sameTriTest edge shading_isect) := by
  unfold sameTriTest
  infer_instance

/-- The candidate weight `edge_weights[sample_id]` of the resampling loop
(lines 1061–1102 of the source). -/
def resampleCandidateWeight (shading_isect : Intersection) (shading_pos : Vec3)
    (m_inv : Mat3) (edge : Edge) (v0 v1 : Vec3) (pmf_e : ℝ) (is_sil : Bool) : ℝ :=
  if pmf_e > 0 ∧ is_sil = true ∧ ¬ sameTriTest edge shading_isect then
    -- If degenerate, the weight is 0
    if lengthSq3 (v1 - v0) > 1e-10 then
      -- Transform the vertices to local coordinates
      let v0o := mulVec m_inv (v0 - shading_pos)
      let v1o := mulVec m_inv (v1 - shading_pos)
      -- If below surface, the weight is 0
      if v0o.z > 0 ∨ v1o.z > 0 then
        -- Clip to the surface tangent plane
        let v0c := if v0o.z < 0 then
            (1 / (v1o.z - v0o.z)) • (v1o.z • v0o - v0o.z • v1o) else v0o
        let v1c := if v1o.z < 0 then
            (1 / (v1o.z - v0c.z)) • (v1o.z • v0c - v0c.z • v1o) else v1o
        -- Integrate over the edge using LTC
        let vodir := v1c - v0c
        let wt := normalize3 vodir
        let l0 := dot3 v0c wt
        let l1 := dot3 v1c wt
        let vo := v0c - l0 • wt
        let d := norm3 vo
        max ((ltcLineI d vo.z wt.z l1 - ltcLineI d vo.z wt.z l0) / pmf_e) 0
      else 0
    else 0
  else 0

/-! ### Primary edge sampler failure paths (claim C6) -/

/-- A ray, modelling `Ray` of the source (origin and direction; the
distance bounds play no role in the settled claims). -/
structure Ray3 where
  org : Vec3
  dir : Vec3
deriving DecidableEq

/-- The zero ray `Ray(Vector3{0,0,0}, Vector3{0,0,0})` written on the
failure paths. -/
def zeroRay3 : Ray3 := ⟨v3zero, v3zero⟩

/-- Ray differential (`RayDifferential` of the source). -/
structure RayDifferential where
  org_dx : Vec3
  org_dy : Vec3
  dir_dx : Vec3
  dir_dy : Vec3
deriving DecidableEq

/-- The all-zero ray differential. -/
def zeroRayDiff : RayDifferential := ⟨v3zero, v3zero, v3zero, v3zero⟩

/-- Modelled from the spec: the external camera interface consumed by the
primary edge sampler (`camera.h`, not under `src/`): the projection of an
edge to screen space (which can fail), the visible-screen test, and the
screen/camera-space maps used by the fisheye path. -/
structure CameraModel where
  fisheye : Bool
  project : Vec3 → Vec3 → Option (Vec2 × Vec2)
  in_screen : Vec2 → Bool
  screen_to_camera : Vec2 → Vec3
  camera_to_screen : Vec3 → Vec2

/-- The per-sample output slots owned by one primary edge sample: the edge
record, the antithetic ray pair, the two throughputs, the two banks of
channel multipliers (`nd` each) and the primary ray differential. -/
structure PrimSampleOut where
  record : PrimaryEdgeRecord
  ray_upper : Ray3
  ray_lower : Ray3
  thr_upper : Vec3
  thr_lower : Vec3
  chans_upper : List ℝ
  chans_lower : List ℝ
  ray_diff : RayDifferential

/-- The state of the output slots right after the initialization block of
`primary_edge_sampler::operator()` (lines 233–243 of the source): record,
rays, throughputs and channel multipliers are zeroed, while
`primary_ray_differentials[idx]` is not written there (it is only assigned
at line 435, on the success path), so the slot keeps its prior contents. -/
def initPrimOut (nd : ℕ) (prior : PrimSampleOut) : PrimSampleOut :=
  { record := ⟨defaultEdge, ⟨0, 0⟩⟩
    ray_upper := zeroRay3
    ray_lower := zeroRay3
    thr_upper := v3zero
    thr_lower := v3zero
    chans_upper := List.replicate nd 0
    chans_lower := List.replicate nd 0
    ray_diff := prior.ray_diff }

/-- `thrust::upper_bound` over the cdf array: the index of the first entry
strictly greater than the probe value. -/
def upperBoundIdx (cdf : List ℝ) (v : ℝ) : ℕ :=
  (cdf.takeWhile fun x => decide (x ≤ v)).length

/-- The edge index selected by the binary search,
`clamp((int)(edge_ptr - edges_cdf - 1), 0, num_edges - 1)` (lines 250–251
of the source). -/
def selectedEdgeId (cdf : List ℝ) (v : ℝ) (num_edges : ℕ) : ℕ :=
  (min (max ((upperBoundIdx cdf v : ℤ) - 1) 0) ((num_edges : ℤ) - 1)).toNat

/-- `primary_edge_sampler::operator()` (lines 232–436 of the source) up to
and including its three data-dependent failure paths: failed projection
(line 259), non-positive pmf (line 262), sampled point off screen (lines
270 and 342).  The code past each screen test — ray construction,
derivative weights and the final ray-differential computation — is
abstracted as the continuations `succ_persp`/`succ_fisheye` (each given the
selected edge, its index, the projected endpoints and the sampled point);
the settled claim concerns only the failure paths, which hold for every
continuation. -/
def primaryEdgeSampler (cam : CameraModel) (pos : Edge → Vec3 × Vec3)
    (edges : List Edge) (edges_pmf edges_cdf : List ℝ)
    (edge_sel t : ℝ) (nd : ℕ)
    (succ_persp succ_fisheye : Edge → ℕ → Vec2 → Vec2 → Vec2 → PrimSampleOut)
    (prior : PrimSampleOut) : PrimSampleOut :=
  let out0 := initPrimOut nd prior
  let num_edges := edges.length
  let edge_id := selectedEdgeId edges_cdf edge_sel num_edges
  let edge := edges.getD edge_id defaultEdge
  let v0 := (pos edge).1
  let v1 := (pos edge).2
  match cam.project v0 v1 with
  | none => out0
  | some (v0_ss, v1_ss) =>
    if edges_pmf.getD edge_id 0 ≤ 0 then out0
    else if cam.fisheye = false then
      -- Uniform sample on the edge
      let edge_pt := v0_ss + t • (v1_ss - v0_ss)
      if ¬ cam.in_screen edge_pt then out0
      else succ_persp edge edge_id v0_ss v1_ss edge_pt
    else
      let v0_dir := cam.screen_to_camera v0_ss
      let v1_dir := cam.screen_to_camera v1_ss
      let v_dir3 := v1_dir - v0_dir
      let edge_pt3 := v0_dir + t • v_dir3
      let edge_pt := cam.camera_to_screen edge_pt3
      if ¬ cam.in_screen edge_pt then out0
      else succ_fisheye edge edge_id v0_ss v1_ss edge_pt

/-- The three data-dependent failure conditions of the primary edge
sampler: the projection of the selected edge fails, the selected edge's pmf
is non-positive, or the sampled point lies outside the visible screen (in
the branch matching the camera model). -/
def primFailCond (cam : CameraModel) (pos : Edge → Vec3 × Vec3)
    (edges : List Edge) (edges_pmf edges_cdf : List ℝ) (edge_sel t : ℝ) : Prop :=
  let edge_id := selectedEdgeId edges_cdf edge_sel edges.length
  let edge := edges.getD edge_id defaultEdge
  let v0 := (pos edge).1
  let v1 := (pos edge).2
  cam.project v0 v1 = none ∨
  edges_pmf.getD edge_id 0 ≤ 0 ∨
  (∃ v0_ss v1_ss, cam.project v0 v1 = some (v0_ss, v1_ss) ∧
    ((cam.fisheye = false ∧ cam.in_screen (v0_ss + t • (v1_ss - v0_ss)) = false) ∨
     (cam.fisheye = true ∧ cam.in_screen (cam.camera_to_screen
        (cam.screen_to_camera v0_ss +
          t • (cam.screen_to_camera v1_ss - cam.screen_to_camera v0_ss))) = false)))

end

/-! ### Edge extraction and merge (claim C4)

`edge_collector` (lines 18–44), `edge_less_comparer` / `edge_equal_comparer`
/ `edge_merger` (lines 46–65) and the per-shape pipeline of
`EdgeSampler::EdgeSampler` (lines 125–153): collect three vertex-sorted
edges per triangle, `thrust::sort` them by `(v0, v1)`, and
`thrust::reduce_by_key` consecutive equal keys with `edge_merger`. -/

/-- A triangle of a shape's index buffer (`get_indices`). -/
structure Tri where
  i0 : ℤ
  i1 : ℤ
  i2 : ℤ
deriving DecidableEq

/-- `edge_collector` restricted to one triangle: the triangle at position
`f` emits its three vertex-index-sorted edges tagged with `f0 = f` and
`f1 = -1` (lines 22–38 of the source). -/
def collectTri (shape_id : ℤ) (f : ℤ) (tr : Tri) : List Edge :=
  [ ⟨shape_id, min tr.i0 tr.i1, max tr.i0 tr.i1, f, -1⟩,
    ⟨shape_id, min tr.i1 tr.i2, max tr.i1 tr.i2, f, -1⟩,
    ⟨shape_id, min tr.i2 tr.i0, max tr.i2 tr.i0, f, -1⟩ ]

/-- The whole `edge_collector` pass over a shape: triangle `idx / 3` with
`idx % 3` selecting the edge, i.e. three edges per triangle in index
order. -/
def collectEdges (shape_id : ℤ) (tris : List Tri) : List Edge :=
  tris.enum.flatMap fun p => collectTri shape_id (p.1 : ℤ) p.2

/-- `edge_less_comparer` (lines 46–53 of the source): lexicographic
comparison on `(v0, v1)`. -/
def edgeLess (e0 e1 : Edge) : Bool :=
  if e0.v0 = e1.v0 then decide (e0.v1 < e1.v1) else decide (e0.v0 < e1.v0)

/-- The non-strict order induced by `edge_less_comparer`, in which
`thrust::sort` leaves the array sorted: `¬(e1 < e0)`. -/
def edgeLe (e0 e1 : Edge) : Bool := ! edgeLess e1 e0

/-- `edge_equal_comparer` (lines 55–59 of the source): equality of the
`(v0, v1)` key. -/
def edgeEqKey (e0 e1 : Edge) : Bool := e0.v0 = e1.v0 && e0.v1 = e1.v1

/-- `edge_merger` (lines 61–65 of the source): keep the first edge's key and
`f0`, take `f1` from the second edge's `f0`. -/
def edgeMerge (e0 e1 : Edge) : Edge := ⟨e0.shape_id, e0.v0, e0.v1, e0.f0, e1.f0⟩

/-- The `thrust::sort` step with `edge_less_comparer`. -/
def sortEdges (l : List Edge) : List Edge := l.mergeSort edgeLe

/-- The `thrust::reduce_by_key` step with `edge_equal_comparer` and
`edge_merger` (sequential fold semantics: a run of equal keys is
left-folded with the merger). -/
def reduceByKey : List Edge → List Edge
  | [] => []
  | [e] => [e]
  | e0 :: e1 :: rest =>
    if edgeEqKey e0 e1 then reduceByKey (edgeMerge e0 e1 :: rest)
    else e0 :: reduceByKey (e1 :: rest)
termination_by l => l.length

/-- The full per-shape extraction: collect, sort, merge (lines 128–152 of
the source). -/
def extractMergedEdges (shape_id : ℤ) (tris : List Tri) : List Edge :=
  reduceByKey (sortEdges (collectEdges shape_id tris))

/-- The `(v0, v1)` key of an edge. -/
def ekey (e : Edge) : ℤ × ℤ := (e.v0, e.v1)

/-- Lexicographic order on keys. -/
def keyLe (a b : ℤ × ℤ) : Prop := a.1 < b.1 ∨ (a.1 = b.1 ∧ a.2 ≤ b.2)

/-- Strict lexicographic order on keys. -/
def keyLt (a b : ℤ × ℤ) : Prop := a.1 < b.1 ∨ (a.1 = b.1 ∧ a.2 < b.2)

/-- Adjacent deduplication of a key sequence, with the recursion shape of
`reduceByKey`. -/
def dedupAdj : List (ℤ × ℤ) → List (ℤ × ℤ)
  | [] => []
  | [k] => [k]
  | k0 :: k1 :: rest =>
    if k0 = k1 then dedupAdj (k0 :: rest)
    else k0 :: dedupAdj (k1 :: rest)
termination_by l => l.length

/-- The edges of a list whose key is `k`. -/
def filterKey (k : ℤ × ℤ) (l : List Edge) : List Edge :=
  l.filter fun e => ekey e = k

/-- The result of left-folding one run of equal-key edges with the merger:
empty stays empty, a run `h :: t` folds to a single edge. -/
def runFold : List Edge → List Edge
  | [] => []
  | h :: t => [t.foldl edgeMerge h]

/-- The three `(v0, v1)` keys contributed by one triangle (independent of
the triangle's position in the index buffer). -/
def keysOfTri (tr : Tri) : List (ℤ × ℤ) :=
  [ (min tr.i0 tr.i1, max tr.i0 tr.i1),
    (min tr.i1 tr.i2, max tr.i1 tr.i2),
    (min tr.i2 tr.i0, max tr.i2 tr.i0) ]

instance : IsAntisymm (ℤ × ℤ) keyLe :=
  ⟨by
    intro a b h1 h2
    rcases a with ⟨a1, a2⟩
    rcases b with ⟨b1, b2⟩
    unfold keyLe at h1 h2
    rw [Prod.mk.injEq]
    dsimp only at h1 h2
    omega⟩

/-! ## Theorems -/

@[simp] theorem Vec3_add_x (a b : Vec3) : (a + b).x = a.x + b.x := rfl

@[simp] theorem Vec3_add_y (a b : Vec3) : (a + b).y = a.y + b.y := rfl

@[simp] theorem Vec3_add_z (a b : Vec3) : (a + b).z = a.z + b.z := rfl

@[simp] theorem Vec3_sub_x (a b : Vec3) : (a - b).x = a.x - b.x := rfl

@[simp] theorem Vec3_sub_y (a b : Vec3) : (a - b).y = a.y - b.y := rfl

@[simp] theorem Vec3_sub_z (a b : Vec3) : (a - b).z = a.z - b.z := rfl

@[simp] theorem Vec3_smul_x (c : ℝ) (a : Vec3) : (c • a).x = c * a.x := rfl

@[simp] theorem Vec3_smul_y (c : ℝ) (a : Vec3) : (c • a).y = c * a.y := rfl

@[simp] theorem Vec3_smul_z (c : ℝ) (a : Vec3) : (c • a).z = c * a.z := rfl

@[simp] theorem Vec2_add_x (a b : Vec2) : (a + b).x = a.x + b.x := rfl

@[simp] theorem Vec2_add_y (a b : Vec2) : (a + b).y = a.y + b.y := rfl

@[simp] theorem Vec2_sub_x (a b : Vec2) : (a - b).x = a.x - b.x := rfl

@[simp] theorem Vec2_sub_y (a b : Vec2) : (a - b).y = a.y - b.y := rfl

@[simp] theorem Vec2_smul_x (c : ℝ) (a : Vec2) : (c • a).x = c * a.x := rfl

@[simp] theorem Vec2_smul_y (c : ℝ) (a : Vec2) : (c • a).y = c * a.y := rfl

/-- Claim C5: whenever the total edge weight is strictly positive (and the
input weights are non-negative, as the projected lengths fed to the builder
are), the distribution builder of `EdgeSampler::EdgeSampler` (lines 160–186
of the source) produces a pmf that is non-negative and sums to 1, and a cdf
that is the exclusive prefix sum of the pmf, hence `cdf 0 = 0`,
`cdf (i+1) = cdf i + pmf i`, and `cdf i ≤ cdf (i+1)` for every `i < n`. -/
theorem C5_distribution_builder (w : ℕ → ℝ) (n : ℕ)
    (hw : ∀ i, i < n → 0 ≤ w i) (hpos : 0 < totalWeight w n) :
    (∀ i, i < n → 0 ≤ edgesPmf w n i) ∧
    (∑ i ∈ Finset.range n, edgesPmf w n i) = 1 ∧
    edgesCdf w n 0 = 0 ∧
    (∀ i, edgesCdf w n (i + 1) = edgesCdf w n i + edgesPmf w n i) ∧
    (∀ i, i + 1 ≤ n → edgesCdf w n i ≤ edgesCdf w n (i + 1)) := by
  have hstep : ∀ i, edgesCdf w n (i + 1) = edgesCdf w n i + edgesPmf w n i := by
    intro i
    simp [edgesCdf, Finset.sum_range_succ]
  have hnn : ∀ i, i < n → 0 ≤ edgesPmf w n i := by
    intro i hi
    exact div_nonneg (hw i hi) hpos.le
  refine ⟨hnn, ?_, ?_, hstep, ?_⟩
  · unfold edgesPmf
    rw [← Finset.sum_div]
    exact div_self hpos.ne'
  · simp [edgesCdf]
  · intro i hi
    rw [hstep i]
    have := hnn i (by omega)
    linarith

/-- Witness for C5 at the concrete weights `w i = i + 1`, `n = 2`. -/
theorem C5_distribution_builder_witness :
    ((∀ i : ℕ, i < 2 → (0 : ℝ) ≤ (i : ℝ) + 1) ∧
      0 < totalWeight (fun j => (j + 1 : ℝ)) 2) ∧
    ((∀ i, i < 2 → 0 ≤ edgesPmf (fun j => (j + 1 : ℝ)) 2 i) ∧
      (∑ i ∈ Finset.range 2, edgesPmf (fun j => (j + 1 : ℝ)) 2 i) = 1 ∧
      edgesCdf (fun j => (j + 1 : ℝ)) 2 0 = 0 ∧
      (∀ i, edgesCdf (fun j => (j + 1 : ℝ)) 2 (i + 1) =
        edgesCdf (fun j => (j + 1 : ℝ)) 2 i + edgesPmf (fun j => (j + 1 : ℝ)) 2 i) ∧
      (∀ i, i + 1 ≤ 2 → edgesCdf (fun j => (j + 1 : ℝ)) 2 i ≤
        edgesCdf (fun j => (j + 1 : ℝ)) 2 (i + 1))) := by
  have h1 : ∀ i : ℕ, i < 2 → (0 : ℝ) ≤ (i : ℝ) + 1 := by
    intro i _
    positivity
  have h2 : 0 < totalWeight (fun j => (j + 1 : ℝ)) 2 := by
    unfold totalWeight
    simp [Finset.sum_range_succ]
    norm_num
  exact ⟨⟨h1, h2⟩, C5_distribution_builder (fun j => (j + 1 : ℝ)) 2 (fun i hi => h1 i hi) h2⟩

/-- Claim C9: `update_primary_edge_weights` (lines 511–525 of the source)
passes contributions through unchanged — its body, the dispatch of
`primary_edge_weights_updater`, is commented out.  The second conjunct
records that the disabled correction is not itself a pass-through: there
are inputs on which `primary_edge_weights_updater` would have changed the
buffers, so disabling it is semantically meaningful. -/
theorem C9_update_primary_edge_weights_identity :
    (∀ (thr : List Vec3) (chans : List ℝ),
      update_primary_edge_weights thr chans = (thr, chans)) ∧
    (∃ (r : PrimaryEdgeRecord) (iu il : Intersection) (tu tl : Vec3) (ch : List ℝ),
      primaryEdgeWeightsUpdaterStep r iu il tu tl ch ≠ (tu, tl, ch)) := by
  constructor
  · intro thr chans
    rfl
  · refine ⟨⟨⟨0, 0, 1, 2, 3⟩, ⟨0, 0⟩⟩, ⟨9, 9⟩, ⟨9, 9⟩, ⟨1, 0, 0⟩, v3zero, [], ?_⟩
    simp [primaryEdgeWeightsUpdaterStep, v3zero]

/-- Claim C10: in `secondary_edge_weights_updater::update_throughput`
(lines 1398–1455 of the source), a sample whose probe ray hit no surface
(`edge_isect.valid()` false) in a scene with no environment map leaves the
edge throughput slot completely unchanged — neither zeroed nor rescaled. -/
theorem C10_invalid_isect_no_envmap_keeps_throughput
    (v0 v1 : Vec3) (edge_surface_point shading_point : SurfacePoint)
    (edge_record : SecondaryEdgeRecord) (edge_throughput : Vec3) :
    update_throughput false false v0 v1 edge_surface_point shading_point
      edge_record edge_throughput = edge_throughput := by
  simp [update_throughput]

/-- Counterexample to claim C7 as stated: for a planar two-faced edge of
length 1 (equal unit face normals, exterior dihedral angle 0) the weight
computed by `secondary_edge_weighter` (line 106 of the source:
`distance(v0, v1) * exterior_dihedral`) is 0, whereas the claim's formula
`length × (π − exterior dihedral angle)` gives π. -/
theorem C7_counterexample :
    secondaryEdgeWeight (fun i => if i = 0 then ⟨0, 0, 0⟩ else ⟨1, 0, 0⟩)
        (fun _ => ⟨0, 0, 1⟩) ⟨0, 0, 1, 0, 1⟩ ≠
      dist3 ((fun i => if i = (0 : ℤ) then (⟨0, 0, 0⟩ : Vec3) else ⟨1, 0, 0⟩) 0)
          ((fun i => if i = (0 : ℤ) then (⟨0, 0, 0⟩ : Vec3) else ⟨1, 0, 0⟩) 1) *
        (Real.pi - exteriorDihedralAngle (fun _ => ⟨0, 0, 1⟩) ⟨0, 0, 1, 0, 1⟩) := by
  have hang : exteriorDihedralAngle (fun _ => (⟨0, 0, 1⟩ : Vec3)) ⟨0, 0, 1, 0, 1⟩ = 0 := by
    unfold exteriorDihedralAngle
    norm_num [dot3, Real.arccos_one]
  have hdist : dist3 (⟨0, 0, 0⟩ : Vec3) ⟨1, 0, 0⟩ = 1 := by
    unfold dist3 norm3 lengthSq3
    norm_num [dot3]
  unfold secondaryEdgeWeight
  simp only [hang]
  norm_num [hdist]
  exact Ne.symm Real.pi_ne_zero

/-- Claim C7 amended: the secondary sampling weight equals the edge's
length multiplied by the exterior dihedral angle itself (which is π minus
the interior dihedral angle), so an exactly planar edge — equal unit face
normals, hence exterior angle 0 — receives weight 0. -/
theorem C7_secondary_weight_amended (pos faceNormal : ℤ → Vec3) (e : Edge)
    (hf : e.f1 ≠ -1) (hplanar : dot3 (faceNormal e.f0) (faceNormal e.f1) = 1) :
    secondaryEdgeWeight pos faceNormal e =
      dist3 (pos e.v0) (pos e.v1) * exteriorDihedralAngle faceNormal e ∧
    secondaryEdgeWeight pos faceNormal e = 0 := by
  refine ⟨rfl, ?_⟩
  unfold secondaryEdgeWeight exteriorDihedralAngle
  rw [if_neg hf, hplanar]
  norm_num [Real.arccos_one]

/-- Witness for C7 at a concrete planar edge. -/
theorem C7_secondary_weight_amended_witness :
    ((1 : ℤ) ≠ -1 ∧
      dot3 ((fun _ => (⟨0, 0, 1⟩ : Vec3)) (0 : ℤ)) ((fun _ => (⟨0, 0, 1⟩ : Vec3)) (1 : ℤ)) = 1) ∧
    (secondaryEdgeWeight (fun _ => v3zero) (fun _ => ⟨0, 0, 1⟩) ⟨0, 0, 1, 0, 1⟩ =
      dist3 ((fun _ => v3zero) (0 : ℤ)) ((fun _ => v3zero) (1 : ℤ)) *
        exteriorDihedralAngle (fun _ => ⟨0, 0, 1⟩) ⟨0, 0, 1, 0, 1⟩ ∧
      secondaryEdgeWeight (fun _ => v3zero) (fun _ => ⟨0, 0, 1⟩) ⟨0, 0, 1, 0, 1⟩ = 0) := by
  have h1 : (1 : ℤ) ≠ -1 := by decide
  have h2 : dot3 ((fun _ => (⟨0, 0, 1⟩ : Vec3)) (0 : ℤ))
      ((fun _ => (⟨0, 0, 1⟩ : Vec3)) (1 : ℤ)) = 1 := by
    norm_num [dot3]
  exact ⟨⟨h1, h2⟩,
    C7_secondary_weight_amended (fun _ => v3zero) (fun _ => ⟨0, 0, 1⟩) ⟨0, 0, 1, 0, 1⟩ h1 h2⟩

/-- Claim C3: for both edge-tree node kinds, if all eight corners of the
node's spatial bound have non-positive dot product with the shading normal
relative to the shading position — every point of the bound lies on or
below the tangent plane — then the node's importance evaluates to exactly
0 (lines 831–841, 847–849 and 867–870 of the source). -/
theorem C3_below_surface_importance_zero (p : SurfacePoint)
    (ltcInt : Sphere → SurfacePoint → ℝ) (sphereBoxIntersect : Sphere → AABB3 → Bool)
    (cam_org : Vec3) (n3 : BVHNode3) (n6 : BVHNode6)
    (h3 : ∀ i, i < 8 → dot3 p.shading_n (corner n3.bounds i - p.position) ≤ 0)
    (h6 : ∀ i, i < 8 → dot3 p.shading_n (corner ⟨n6.p_min, n6.p_max⟩ i - p.position) ≤ 0) :
    importance3 ltcInt n3 p = 0 ∧
    importance6 ltcInt sphereBoxIntersect cam_org n6 p = 0 := by
  have hb3 : is_bound_below_surface n3.bounds p = true := by
    unfold is_bound_below_surface
    rw [List.all_eq_true]
    intro i hi
    rw [List.mem_range] at hi
    exact decide_eq_true (h3 i hi)
  have hb6 : is_bound_below_surface ⟨n6.p_min, n6.p_max⟩ p = true := by
    unfold is_bound_below_surface
    rw [List.all_eq_true]
    intro i hi
    rw [List.mem_range] at hi
    exact decide_eq_true (h6 i hi)
  constructor
  · unfold importance3
    rw [if_pos hb3]
  · unfold importance6
    rw [if_pos hb6]

/-- Witness for C3: a box entirely at negative z under a shading point at
the origin with upward normal. -/
theorem C3_below_surface_importance_zero_witness :
    ((∀ i, i < 8 → dot3 (⟨0, 0, 1⟩ : Vec3)
        (corner (⟨⟨-1, -1, -3⟩, ⟨1, 1, -1⟩⟩ : AABB3) i - (⟨0, 0, 0⟩ : Vec3)) ≤ 0)) ∧
    (importance3 (fun _ _ => 0) ⟨⟨⟨-1, -1, -3⟩, ⟨1, 1, -1⟩⟩, 1⟩
        ⟨⟨0, 0, 0⟩, ⟨0, 0, 1⟩, ⟨0, 0, 1⟩⟩ = 0 ∧
      importance6 (fun _ _ => 0) (fun _ _ => true) ⟨0, 0, 5⟩
        ⟨⟨-1, -1, -3⟩, ⟨1, 1, -1⟩, ⟨-1, -1, -1⟩, ⟨1, 1, 1⟩, 1⟩
        ⟨⟨0, 0, 0⟩, ⟨0, 0, 1⟩, ⟨0, 0, 1⟩⟩ = 0) := by
  have h : ∀ i, i < 8 → dot3 (⟨0, 0, 1⟩ : Vec3)
      (corner (⟨⟨-1, -1, -3⟩, ⟨1, 1, -1⟩⟩ : AABB3) i - (⟨0, 0, 0⟩ : Vec3)) ≤ 0 := by
    intro i hi
    interval_cases i <;> norm_num [corner, dot3]
  exact ⟨h, C3_below_surface_importance_zero ⟨⟨0, 0, 0⟩, ⟨0, 0, 1⟩, ⟨0, 0, 1⟩⟩
    (fun _ _ => 0) (fun _ _ => true) ⟨0, 0, 5⟩ _ _ h h⟩

/-- Arithmetic of the child-0 branch of the descent: if the uniform sample
is non-negative and falls strictly below `i0 / (i0 + i1)`, then `i0` is
strictly positive, the branch probability is strictly positive, and the
rescaled sample is again in `[0, 1)`. -/
theorem descentBranch0 {s i0 i1 : ℝ} (h0 : 0 ≤ i0) (h1 : 0 ≤ i1)
    (hs0 : 0 ≤ s) (hlt : s < i0 / (i0 + i1)) :
    0 < i0 ∧ 0 < i0 / (i0 + i1) ∧
    0 ≤ s * (i0 + i1) / i0 ∧ s * (i0 + i1) / i0 < 1 := by
  have hsum : 0 < i0 + i1 := by
    rcases lt_or_le 0 (i0 + i1) with h | h
    · exact h
    · have hz : i0 + i1 = 0 := le_antisymm h (by positivity)
      rw [hz, div_zero] at hlt
      linarith
  have hi0 : 0 < i0 := by
    rcases lt_or_le 0 i0 with h | h
    · exact h
    · have hz : i0 = 0 := le_antisymm h h0
      rw [hz, zero_div] at hlt
      linarith
  refine ⟨hi0, div_pos hi0 hsum, div_nonneg (mul_nonneg hs0 hsum.le) hi0.le, ?_⟩
  rw [div_lt_one hi0]
  exact (lt_div_iff hsum).mp hlt

/-- Arithmetic of the child-1 branch of the descent: if the sample is in
`[0, 1)`, not both importances are ≤ 0, and the sample is not below
`i0 / (i0 + i1)`, then `i1` is strictly positive, the branch probability
`1 - i0 / (i0 + i1)` is strictly positive, and the rescaled sample is
again in `[0, 1)`. -/
theorem descentBranch1 {s i0 i1 : ℝ} (h0 : 0 ≤ i0) (h1 : 0 ≤ i1)
    (hs0 : 0 ≤ s) (hs1 : s < 1) (hnboth : ¬(i0 ≤ 0 ∧ i1 ≤ 0))
    (hge : ¬ s < i0 / (i0 + i1)) :
    0 < i1 ∧ 0 < 1 - i0 / (i0 + i1) ∧
    0 ≤ (s * (i0 + i1) - i0) / i1 ∧ (s * (i0 + i1) - i0) / i1 < 1 := by
  have hone : 0 < i0 ∨ 0 < i1 := by
    by_contra hc
    push_neg at hc
    exact hnboth ⟨hc.1, hc.2⟩
  have hsum : 0 < i0 + i1 := by
    rcases hone with h | h
    · exact add_pos_of_pos_of_nonneg h h1
    · exact add_pos_of_nonneg_of_pos h0 h
  have hi1 : 0 < i1 := by
    rcases lt_or_le 0 i1 with h | h
    · exact h
    · have hz : i1 = 0 := le_antisymm h h1
      have hi0 : 0 < i0 := by
        rcases hone with h' | h'
        · exact h'
        · rw [hz] at h'
          exact absurd h' (lt_irrefl 0)
      rw [hz, add_zero, div_self hi0.ne'] at hge
      exact absurd hs1 hge
  push_neg at hge
  have hge' : i0 ≤ s * (i0 + i1) := (div_le_iff hsum).mp hge
  have hup : s * (i0 + i1) < i0 + i1 := by
    nlinarith
  refine ⟨hi1, ?_, div_nonneg (by linarith) hi1.le, ?_⟩
  · have : i0 / (i0 + i1) < 1 := by
      rw [div_lt_one hsum]
      linarith
    linarith
  · rw [div_lt_one hi1]
    linarith

/-- Soundness of the recursive descent `sample_edge` on well-formed trees:
for non-negative importances and a sample in `[0, 1)`, starting from a
strictly positive pmf accumulator, the descent returns `-1` exactly when it
reaches a node both of whose children have importance ≤ 0, and otherwise
returns the id of some leaf together with a strictly positive accumulated
pmf. -/
theorem sampleEdgeNode_spec (imp : BVHTree → ℝ) (himp : ∀ u, 0 ≤ imp u) :
    ∀ (t : BVHTree) (sample pmf : ℝ), WFTree t → 0 ≤ sample → sample < 1 → 0 < pmf →
    (((sampleEdgeNode imp t sample pmf).1 = -1) ↔ descentFails imp t sample) ∧
    ((sampleEdgeNode imp t sample pmf).1 ≠ -1 →
      IsLeafId t (sampleEdgeNode imp t sample pmf).1 ∧
      0 < (sampleEdgeNode imp t sample pmf).2) := by
  intro t
  induction t with
  | leaf id =>
    intro sample pmf hwf _ _ hpmf
    constructor
    · simp only [sampleEdgeNode, descentFails]
      exact ⟨fun h => hwf h, fun h => absurd h (fun h => h)⟩
    · intro _
      exact ⟨rfl, hpmf⟩
  | node c0 c1 ih0 ih1 =>
    intro sample pmf hwf hs0 hs1 hpmf
    by_cases hboth : imp c0 ≤ 0 ∧ imp c1 ≤ 0
    · constructor
      · simp only [sampleEdgeNode, if_pos hboth, descentFails]
        exact ⟨fun _ => Or.inl hboth, fun _ => trivial⟩
      · simp only [sampleEdgeNode, if_pos hboth]
        intro h
        exact absurd rfl h
    · by_cases hbr : sample < imp c0 / (imp c0 + imp c1)
      · obtain ⟨hi0, hprob, hr0, hr1⟩ :=
          descentBranch0 (himp c0) (himp c1) hs0 hbr
        have heq : sampleEdgeNode imp (.node c0 c1) sample pmf =
            sampleEdgeNode imp c0 (sample * (imp c0 + imp c1) / imp c0)
              (pmf * (imp c0 / (imp c0 + imp c1))) := by
          simp only [sampleEdgeNode, if_neg hboth, if_pos hbr]
        have hfail : descentFails imp (.node c0 c1) sample ↔
            (imp c0 ≤ 0 ∧ imp c1 ≤ 0) ∨
            descentFails imp c0 (sample * (imp c0 + imp c1) / imp c0) := by
          simp only [descentFails, if_pos hbr]
        obtain ⟨iha, ihb⟩ := ih0 (sample * (imp c0 + imp c1) / imp c0)
          (pmf * (imp c0 / (imp c0 + imp c1))) hwf.1 hr0 hr1 (mul_pos hpmf hprob)
        rw [heq, hfail]
        constructor
        · constructor
          · intro h
            exact Or.inr (iha.mp h)
          · intro h
            rcases h with h | h
            · exact absurd h hboth
            · exact iha.mpr h
        · intro h
          obtain ⟨hl, hp⟩ := ihb h
          exact ⟨Or.inl hl, hp⟩
      · obtain ⟨hi1, hprob, hr0, hr1⟩ :=
          descentBranch1 (himp c0) (himp c1) hs0 hs1 hboth hbr
        have heq : sampleEdgeNode imp (.node c0 c1) sample pmf =
            sampleEdgeNode imp c1 ((sample * (imp c0 + imp c1) - imp c0) / imp c1)
              (pmf * (1 - imp c0 / (imp c0 + imp c1))) := by
          simp only [sampleEdgeNode, if_neg hboth, if_neg hbr]
        have hfail : descentFails imp (.node c0 c1) sample ↔
            (imp c0 ≤ 0 ∧ imp c1 ≤ 0) ∨
            descentFails imp c1 ((sample * (imp c0 + imp c1) - imp c0) / imp c1) := by
          simp only [descentFails, if_neg hbr]
        obtain ⟨iha, ihb⟩ := ih1 ((sample * (imp c0 + imp c1) - imp c0) / imp c1)
          (pmf * (1 - imp c0 / (imp c0 + imp c1))) hwf.2 hr0 hr1 (mul_pos hpmf hprob)
        rw [heq, hfail]
        constructor
        · constructor
          · intro h
            exact Or.inr (iha.mp h)
          · intro h
            rcases h with h | h
            · exact absurd h hboth
            · exact iha.mpr h
        · intro h
          obtain ⟨hl, hp⟩ := ihb h
          exact ⟨Or.inr hl, hp⟩

/-- Claim C2: for every query (absorbed into the per-node importance
function, non-negative as the source's importance is) and uniform sample in
`[0, 1)`, the edge-tree descent over the two roots (`sample_edge`, lines
891–977 of the source) either returns `-1`, or returns the id of an actual
leaf together with a strictly positive accumulated pmf; and it returns `-1`
exactly when both root importances — or, during descent, both child
importances of a reached node — are ≤ 0. -/
theorem C2_edge_tree_descent (imp : BVHTree → ℝ) (cs_root ncs_root : Option BVHTree)
    (sample : ℝ) (himp : ∀ u, 0 ≤ imp u)
    (hwf : ∀ u, cs_root = some u ∨ ncs_root = some u → WFTree u)
    (hs0 : 0 ≤ sample) (hs1 : sample < 1) :
    (((sampleEdgeRoots imp cs_root ncs_root sample).1 = -1) ↔
      rootsFail imp cs_root ncs_root sample) ∧
    ((sampleEdgeRoots imp cs_root ncs_root sample).1 ≠ -1 →
      IsRootsLeafId cs_root ncs_root (sampleEdgeRoots imp cs_root ncs_root sample).1 ∧
      0 < (sampleEdgeRoots imp cs_root ncs_root sample).2) := by
  cases cs_root with
  | none =>
    cases ncs_root with
    | none =>
      constructor
      · simp [sampleEdgeRoots, rootsFail]
      · intro h
        simp [sampleEdgeRoots] at h
    | some t1 =>
      have hwf1 : WFTree t1 := hwf t1 (Or.inr rfl)
      by_cases hboth : (0 : ℝ) ≤ 0 ∧ imp t1 ≤ 0
      · constructor
        · simp only [sampleEdgeRoots, rootsFail, if_pos hboth]
          exact ⟨fun _ => Or.inl hboth, fun _ => trivial⟩
        · simp only [sampleEdgeRoots, if_pos hboth]
          intro h
          exact absurd rfl h
      · by_cases hbr : sample < 0 / (0 + imp t1)
        · rw [zero_div] at hbr
          exact absurd hbr (not_lt.mpr hs0)
        · obtain ⟨hi1, hprob, hr0, hr1⟩ :=
            descentBranch1 le_rfl (himp t1) hs0 hs1 hboth hbr
          have heq : sampleEdgeRoots imp none (some t1) sample =
              sampleEdgeNode imp t1 ((sample * (0 + imp t1) - 0) / imp t1)
                (1 - 0 / (0 + imp t1)) := by
            simp only [sampleEdgeRoots, if_neg hboth, if_neg hbr]

          have hfail : rootsFail imp none (some t1) sample ↔
              ((0 : ℝ) ≤ 0 ∧ imp t1 ≤ 0) ∨
              descentFails imp t1 ((sample * (0 + imp t1) - 0) / imp t1) := by
            simp only [rootsFail, if_neg hbr]
          obtain ⟨iha, ihb⟩ := sampleEdgeNode_spec imp himp t1
            ((sample * (0 + imp t1) - 0) / imp t1) (1 - 0 / (0 + imp t1)) hwf1 hr0 hr1
            (by linarith)
          rw [heq, hfail]
          constructor
          · constructor
            · intro h
              exact Or.inr (iha.mp h)
            · intro h
              rcases h with h | h
              · exact absurd h hboth
              · exact iha.mpr h
          · intro h
            obtain ⟨hl, hp⟩ := ihb h
            exact ⟨Or.inr ⟨t1, rfl, hl⟩, hp⟩
  | some t0 =>
    have hwf0 : WFTree t0 := hwf t0 (Or.inl rfl)
    cases ncs_root with
    | none =>
      by_cases hboth : imp t0 ≤ 0 ∧ (0 : ℝ) ≤ 0
      · constructor
        · simp only [sampleEdgeRoots, rootsFail, if_pos hboth]
          exact ⟨fun _ => Or.inl hboth, fun _ => trivial⟩
        · simp only [sampleEdgeRoots, if_pos hboth]
          intro h
          exact absurd rfl h
      · have hbr : sample < imp t0 / (imp t0 + 0) := by
          have hi0 : 0 < imp t0 := by
            rcases lt_or_le 0 (imp t0) with h | h
            · exact h
            · exact absurd ⟨h, le_rfl⟩ hboth
          rw [add_zero, div_self hi0.ne']
          exact hs1
        obtain ⟨hi0, hprob, hr0, hr1⟩ :=
          descentBranch0 (himp t0) le_rfl hs0 (by rwa [add_zero] at hbr ⊢)
        have hbr' : sample < imp t0 / (imp t0 + 0) := hbr
        have heq : sampleEdgeRoots imp (some t0) none sample =
            sampleEdgeNode imp t0 (sample * (imp t0 + 0) / imp t0)
              (imp t0 / (imp t0 + 0)) := by
          simp only [sampleEdgeRoots, if_neg hboth, if_pos hbr']
        have hfail : rootsFail imp (some t0) none sample ↔
            (imp t0 ≤ 0 ∧ (0 : ℝ) ≤ 0) ∨
            descentFails imp t0 (sample * (imp t0 + 0) / imp t0) := by
          simp only [rootsFail, if_pos hbr']
        obtain ⟨iha, ihb⟩ := sampleEdgeNode_spec imp himp t0
          (sample * (imp t0 + 0) / imp t0) (imp t0 / (imp t0 + 0)) hwf0
          (by rwa [add_zero] at hr0 ⊢) (by rwa [add_zero] at hr1 ⊢)
          (by rw [add_zero]; rw [add_zero] at hprob; exact hprob)
        rw [heq, hfail]
        constructor
        · constructor
          · intro h
            exact Or.inr (iha.mp h)
          · intro h
            rcases h with h | h
            · exact absurd h hboth
            · exact iha.mpr h
        · intro h
          obtain ⟨hl, hp⟩ := ihb h
          exact ⟨Or.inl ⟨t0, rfl, hl⟩, hp⟩
    | some t1 =>
      have hwf1 : WFTree t1 := hwf t1 (Or.inr rfl)
      by_cases hboth : imp t0 ≤ 0 ∧ imp t1 ≤ 0
      · constructor
        · simp only [sampleEdgeRoots, rootsFail, if_pos hboth]
          exact ⟨fun _ => Or.inl hboth, fun _ => trivial⟩
        · simp only [sampleEdgeRoots, if_pos hboth]
          intro h
          exact absurd rfl h
      · by_cases hbr : sample < imp t0 / (imp t0 + imp t1)
        · obtain ⟨hi0, hprob, hr0, hr1⟩ :=
            descentBranch0 (himp t0) (himp t1) hs0 hbr
          have heq : sampleEdgeRoots imp (some t0) (some t1) sample =
              sampleEdgeNode imp t0 (sample * (imp t0 + imp t1) / imp t0)
                (imp t0 / (imp t0 + imp t1)) := by
            simp only [sampleEdgeRoots, if_neg hboth, if_pos hbr]
          have hfail : rootsFail imp (some t0) (some t1) sample ↔
              (imp t0 ≤ 0 ∧ imp t1 ≤ 0) ∨
              descentFails imp t0 (sample * (imp t0 + imp t1) / imp t0) := by
            simp only [rootsFail, if_pos hbr]
          obtain ⟨iha, ihb⟩ := sampleEdgeNode_spec imp himp t0
            (sample * (imp t0 + imp t1) / imp t0) (imp t0 / (imp t0 + imp t1))
            hwf0 hr0 hr1 hprob
          rw [heq, hfail]
          constructor
          · constructor
            · intro h
              exact Or.inr (iha.mp h)
            · intro h
              rcases h with h | h
              · exact absurd h hboth
              · exact iha.mpr h
          · intro h
            obtain ⟨hl, hp⟩ := ihb h
            exact ⟨Or.inl ⟨t0, rfl, hl⟩, hp⟩
        · obtain ⟨hi1, hprob, hr0, hr1⟩ :=
            descentBranch1 (himp t0) (himp t1) hs0 hs1 hboth hbr
          have heq : sampleEdgeRoots imp (some t0) (some t1) sample =
              sampleEdgeNode imp t1 ((sample * (imp t0 + imp t1) - imp t0) / imp t1)
                (1 - imp t0 / (imp t0 + imp t1)) := by
            simp only [sampleEdgeRoots, if_neg hboth, if_neg hbr]
          have hfail : rootsFail imp (some t0) (some t1) sample ↔
              (imp t0 ≤ 0 ∧ imp t1 ≤ 0) ∨
              descentFails imp t1 ((sample * (imp t0 + imp t1) - imp t0) / imp t1) := by
            simp only [rootsFail, if_neg hbr]
          obtain ⟨iha, ihb⟩ := sampleEdgeNode_spec imp himp t1
            ((sample * (imp t0 + imp t1) - imp t0) / imp t1)
            (1 - imp t0 / (imp t0 + imp t1)) hwf1 hr0 hr1 hprob
          rw [heq, hfail]
          constructor
          · constructor
            · intro h
              exact Or.inr (iha.mp h)
            · intro h
              rcases h with h | h
              · exact absurd h hboth
              · exact iha.mpr h
          · intro h
            obtain ⟨hl, hp⟩ := ihb h
            exact ⟨Or.inr ⟨t1, rfl, hl⟩, hp⟩

/-- Witness for C2: a two-leaf convex-silhouette tree with unit importance
and no non-convex tree, sampled at `1/2`. -/
theorem C2_edge_tree_descent_witness :
    ((∀ u : BVHTree, (0 : ℝ) ≤ 1) ∧
      (∀ u, some (BVHTree.node (.leaf 3) (.leaf 5)) = some u ∨
        (none : Option BVHTree) = some u → WFTree u) ∧
      (0 : ℝ) ≤ 1 / 2 ∧ (1 / 2 : ℝ) < 1) ∧
    ((((sampleEdgeRoots (fun _ => 1) (some (BVHTree.node (.leaf 3) (.leaf 5))) none
        (1 / 2)).1 = -1) ↔
      rootsFail (fun _ => 1) (some (BVHTree.node (.leaf 3) (.leaf 5))) none (1 / 2)) ∧
    ((sampleEdgeRoots (fun _ => 1) (some (BVHTree.node (.leaf 3) (.leaf 5))) none
        (1 / 2)).1 ≠ -1 →
      IsRootsLeafId (some (BVHTree.node (.leaf 3) (.leaf 5))) none
        (sampleEdgeRoots (fun _ => 1) (some (BVHTree.node (.leaf 3) (.leaf 5))) none
          (1 / 2)).1 ∧
      0 < (sampleEdgeRoots (fun _ => 1) (some (BVHTree.node (.leaf 3) (.leaf 5))) none
        (1 / 2)).2)) := by
  have h1 : ∀ u : BVHTree, (0 : ℝ) ≤ 1 := fun _ => zero_le_one
  have h2 : ∀ u, some (BVHTree.node (.leaf 3) (.leaf 5)) = some u ∨
      (none : Option BVHTree) = some u → WFTree u := by
    intro u hu
    rcases hu with h | h
    · cases h
      exact ⟨show (3 : ℤ) ≠ -1 by decide, show (5 : ℤ) ≠ -1 by decide⟩
    · cases h
  have h3 : (0 : ℝ) ≤ 1 / 2 := by norm_num
  have h4 : (1 / 2 : ℝ) < 1 := by norm_num
  exact ⟨⟨h1, h2, h3, h4⟩,
    C2_edge_tree_descent (fun _ => 1) (some (BVHTree.node (.leaf 3) (.leaf 5))) none
      (1 / 2) h1 h2 h3 h4⟩

/-- The iterate used by a loop iteration lies in the bracket whenever the
bracket is non-empty. -/
theorem usedIterate_mem (l lb ub : ℝ) (h : lb ≤ ub) :
    lb ≤ usedIterate l lb ub ∧ usedIterate l lb ub ≤ ub := by
  unfold usedIterate
  by_cases hin : lb ≤ l ∧ l ≤ ub
  · rw [if_pos hin]
    exact hin
  · rw [if_neg hin]
    constructor <;> linarith

/-- Invariant of the refinement loop: with at least one unit of fuel and a
non-empty bracket, the final bracket is nested in the initial one, stays
non-empty, the returned iterate lies in the final bracket, and the number
of executed iterations grows by at most the fuel. -/
theorem lineSolveLoop_invariant (f fp : ℝ → ℝ) (target : ℝ) :
    ∀ (fuel : ℕ) (l lb ub : ℝ) (cnt : ℕ), 1 ≤ fuel → lb ≤ ub →
    lb ≤ (lineSolveLoop f fp target fuel l lb ub cnt).2.1 ∧
    (lineSolveLoop f fp target fuel l lb ub cnt).2.1 ≤
      (lineSolveLoop f fp target fuel l lb ub cnt).2.2.1 ∧
    (lineSolveLoop f fp target fuel l lb ub cnt).2.2.1 ≤ ub ∧
    (lineSolveLoop f fp target fuel l lb ub cnt).2.1 ≤
      (lineSolveLoop f fp target fuel l lb ub cnt).1 ∧
    (lineSolveLoop f fp target fuel l lb ub cnt).1 ≤
      (lineSolveLoop f fp target fuel l lb ub cnt).2.2.1 ∧
    (lineSolveLoop f fp target fuel l lb ub cnt).2.2.2 ≤ cnt + fuel := by
  intro fuel
  induction fuel with
  | zero =>
    intro l lb ub cnt hfuel _
    exact absurd hfuel (by omega)
  | succ n ih =>
    intro l lb ub cnt _ hb
    obtain ⟨hu1, hu2⟩ := usedIterate_mem l lb ub hb
    by_cases hstop : |f (usedIterate l lb ub) - target| < 1e-5 ∨ n = 0
    · have heq : lineSolveLoop f fp target (n + 1) l lb ub cnt =
          (usedIterate l lb ub, lb, ub, cnt + 1) := by
        simp only [lineSolveLoop, if_pos hstop]
      rw [heq]
      exact ⟨le_rfl, hb, le_rfl, hu1, hu2, by show cnt + 1 ≤ cnt + (n + 1); omega⟩
    · push_neg at hstop
      have hn : 1 ≤ n := by omega
      have hcond : ¬(|f (usedIterate l lb ub) - target| < 1e-5 ∨ n = 0) := by
        push_neg
        exact hstop
      by_cases hval : f (usedIterate l lb ub) - target > 0
      · have heq : lineSolveLoop f fp target (n + 1) l lb ub cnt =
            lineSolveLoop f fp target n
              (usedIterate l lb ub -
                (f (usedIterate l lb ub) - target) / fp (usedIterate l lb ub))
              lb (usedIterate l lb ub) (cnt + 1) := by
          simp only [lineSolveLoop, if_pos hval]
          rw [if_neg hcond]
        rw [heq]
        obtain ⟨g1, g2, g3, g4, g5, g6⟩ := ih _ lb (usedIterate l lb ub) (cnt + 1) hn hu1
        exact ⟨g1, g2, le_trans g3 hu2, g4, g5, by omega⟩
      · have heq : lineSolveLoop f fp target (n + 1) l lb ub cnt =
            lineSolveLoop f fp target n
              (usedIterate l lb ub -
                (f (usedIterate l lb ub) - target) / fp (usedIterate l lb ub))
              (usedIterate l lb ub) ub (cnt + 1) := by
          simp only [lineSolveLoop, if_neg hval]
          rw [if_neg hcond]
        rw [heq]
        obtain ⟨g1, g2, g3, g4, g5, g6⟩ := ih _ (usedIterate l lb ub) ub (cnt + 1) hn hu2
        exact ⟨le_trans hu1 g1, g2, g3, g4, g5, by omega⟩

/-- Claim C8: the hybrid bisection/Newton line-CDF inversion (lines
1188–1213 of the source) executes at most 20 iterations of its fixed-count
loop (hence terminates on every input); the bisection bracket `[lb, ub]`
always stays inside `[min(l0,l1), max(l0,l1)]` and never empties; the
returned iterate lies in the final bracket; and the iterate actually used
by each iteration lies in the current bracket — it is reset to the bracket
midpoint whenever the preceding Newton step left the bracket. -/
theorem C8_line_cdf_inversion (f fp : ℝ → ℝ) (target l0 l1 : ℝ)
    (l lb ub : ℝ) (hb : lb ≤ ub) :
    ((lineSolve f fp target l0 l1).2.2.2 ≤ 20 ∧
      min l0 l1 ≤ (lineSolve f fp target l0 l1).2.1 ∧
      (lineSolve f fp target l0 l1).2.1 ≤ (lineSolve f fp target l0 l1).2.2.1 ∧
      (lineSolve f fp target l0 l1).2.2.1 ≤ max l0 l1 ∧
      (lineSolve f fp target l0 l1).2.1 ≤ (lineSolve f fp target l0 l1).1 ∧
      (lineSolve f fp target l0 l1).1 ≤ (lineSolve f fp target l0 l1).2.2.1) ∧
    (lb ≤ usedIterate l lb ub ∧ usedIterate l lb ub ≤ ub) := by
  have hmm : min l0 l1 ≤ max l0 l1 := min_le_max
  obtain ⟨g1, g2, g3, g4, g5, g6⟩ := lineSolveLoop_invariant f fp target 20
    ((min l0 l1 + max l0 l1) / 2) (min l0 l1) (max l0 l1) 0 (by omega) hmm
  have g6' : (lineSolve f fp target l0 l1).2.2.2 ≤ 0 + 20 := g6
  exact ⟨⟨by omega, g1, g2, g3, g4, g5⟩, usedIterate_mem l lb ub hb⟩

/-- Witness for C8 at a concrete bracket. -/
theorem C8_line_cdf_inversion_witness :
    ((0 : ℝ) ≤ 1) ∧
    (((lineSolve (fun x => x) (fun _ => 1) (1 / 2) 0 1).2.2.2 ≤ 20 ∧
      min (0 : ℝ) 1 ≤ (lineSolve (fun x => x) (fun _ => 1) (1 / 2) 0 1).2.1 ∧
      (lineSolve (fun x => x) (fun _ => 1) (1 / 2) 0 1).2.1 ≤
        (lineSolve (fun x => x) (fun _ => 1) (1 / 2) 0 1).2.2.1 ∧
      (lineSolve (fun x => x) (fun _ => 1) (1 / 2) 0 1).2.2.1 ≤ max (0 : ℝ) 1 ∧
      (lineSolve (fun x => x) (fun _ => 1) (1 / 2) 0 1).2.1 ≤
        (lineSolve (fun x => x) (fun _ => 1) (1 / 2) 0 1).1 ∧
      (lineSolve (fun x => x) (fun _ => 1) (1 / 2) 0 1).1 ≤
        (lineSolve (fun x => x) (fun _ => 1) (1 / 2) 0 1).2.2.1) ∧
    ((0 : ℝ) ≤ usedIterate 5 0 1 ∧ usedIterate 5 0 1 ≤ 1)) := by
  have hb : (0 : ℝ) ≤ 1 := zero_le_one
  exact ⟨hb, C8_line_cdf_inversion (fun x => x) (fun _ => 1) (1 / 2) 0 1 5 0 1 hb⟩

/-- Claim C1 fails on the code (code bug): the `same_tri` rejection of the
resampling loop compares the edge's vertex indices `v0`, `v1` against the
intersected triangle index `tri_id` (lines 1065–1066 of the source) instead
of the adjacent face indices `f0`, `f1`, contradicting the comment directly
above it ("If the edge lies on the same triangle of shading isects, the
weight is 0").  Concretely: the edge `{shape 0, v0 = 5, v1 = 7, f0 = 2,
f1 = 3}` is adjacent to the intersected triangle `tri_id = 2` of shape 0,
yet `same_tri` is false and the candidate weight evaluates to the strictly
positive value `1 + π/2` (unit pmf, silhouette, identity LTC transform,
shading point at the origin, endpoints `(∓1, 0, 1)`), so the face-sharing
candidate can be chosen. -/
theorem C1_face_sharing_candidate_kept :
    (⟨0, 5, 7, 2, 3⟩ : Edge).f0 = (⟨0, 2⟩ : Intersection).tri_id ∧
    ¬ sameTriTest ⟨0, 5, 7, 2, 3⟩ ⟨0, 2⟩ ∧
    resampleCandidateWeight ⟨0, 2⟩ v3zero idMat3 ⟨0, 5, 7, 2, 3⟩ ⟨-1, 0, 1⟩ ⟨1, 0, 1⟩ 1 true
      = 1 + Real.pi / 2 ∧
    (0 : ℝ) < 1 + Real.pi / 2 := by
  have hno : ¬ sameTriTest ⟨0, 5, 7, 2, 3⟩ ⟨0, 2⟩ := by
    unfold sameTriTest
    simp
  refine ⟨rfl, hno, ?_, by positivity⟩
  have hs4 : Real.sqrt 4 = 2 := by
    rw [show (4 : ℝ) = 2 ^ 2 by norm_num]
    exact Real.sqrt_sq (by norm_num)
  have hneg : Real.arctan (-1) = -(Real.pi / 4) := by
    rw [show (-1 : ℝ) = -(1 : ℝ) by norm_num, Real.arctan_neg, Real.arctan_one]
  have hmax : max (1 + Real.pi / 2) 0 = 1 + Real.pi / 2 := by
    rw [max_eq_left]
    positivity
  norm_num [resampleCandidateWeight, hno, mulVec, idMat3, dot3, lengthSq3, normalize3,
    norm3, v3zero, ltcLineI, hs4, Real.arctan_one, hneg, Real.sqrt_one]
  rw [show ((1 : ℝ) / 2 + Real.pi / 4 - (-(1 / 2) + -(Real.pi / 4))) = 1 + Real.pi / 2 by
    ring]
  exact hmax

/-- Counterexample to claim C6 as stated: on a failing sample (here the
projection of the selected edge fails) the primary ray differential slot is
not left at zero — the sampler never writes it on the failure paths, so it
keeps whatever the buffer previously held (here a non-zero differential). -/
theorem C6_counterexample :
    (primaryEdgeSampler ⟨false, fun _ _ => none, fun _ => true, fun _ => v3zero,
        fun _ => ⟨0, 0⟩⟩ (fun _ => (v3zero, v3zero)) [] [] [] 0 0 1
        (fun _ _ _ _ _ => initPrimOut 1 ⟨⟨defaultEdge, ⟨0, 0⟩⟩, zeroRay3, zeroRay3,
          v3zero, v3zero, [], [], zeroRayDiff⟩)
        (fun _ _ _ _ _ => initPrimOut 1 ⟨⟨defaultEdge, ⟨0, 0⟩⟩, zeroRay3, zeroRay3,
          v3zero, v3zero, [], [], zeroRayDiff⟩)
        ⟨⟨defaultEdge, ⟨0, 0⟩⟩, zeroRay3, zeroRay3, v3zero, v3zero, [], [],
          ⟨⟨1, 0, 0⟩, v3zero, v3zero, v3zero⟩⟩).ray_diff ≠ zeroRayDiff := by
  show (initPrimOut 1 _).ray_diff ≠ zeroRayDiff
  simp only [initPrimOut, zeroRayDiff]
  intro h
  have hx := congrArg (fun r => r.org_dx.x) h
  simp [v3zero] at hx

/-- Claim C6 amended: on every failing primary edge sample — failed
projection, non-positive pmf, or sampled point outside the visible screen —
all of the sample's outputs that the sampler owns are left at the zeroed
initialization state: zero edge record (invalid edge, `shape_id = -1`),
zero rays, zero throughputs, zero channel multipliers.  The primary ray
differential slot, however, is not written on the failure paths and keeps
its prior contents. -/
theorem C6_primary_failure_zeroes_outputs (cam : CameraModel)
    (pos : Edge → Vec3 × Vec3) (edges : List Edge) (edges_pmf edges_cdf : List ℝ)
    (edge_sel t : ℝ) (nd : ℕ)
    (succ_persp succ_fisheye : Edge → ℕ → Vec2 → Vec2 → Vec2 → PrimSampleOut)
    (prior : PrimSampleOut)
    (h : primFailCond cam pos edges edges_pmf edges_cdf edge_sel t) :
    primaryEdgeSampler cam pos edges edges_pmf edges_cdf edge_sel t nd
      succ_persp succ_fisheye prior = initPrimOut nd prior ∧
    (initPrimOut nd prior).record = ⟨defaultEdge, ⟨0, 0⟩⟩ ∧
    (initPrimOut nd prior).ray_upper = zeroRay3 ∧
    (initPrimOut nd prior).ray_lower = zeroRay3 ∧
    (initPrimOut nd prior).thr_upper = v3zero ∧
    (initPrimOut nd prior).thr_lower = v3zero ∧
    (initPrimOut nd prior).chans_upper = List.replicate nd 0 ∧
    (initPrimOut nd prior).chans_lower = List.replicate nd 0 ∧
    (initPrimOut nd prior).ray_diff = prior.ray_diff := by
  refine ⟨?_, rfl, rfl, rfl, rfl, rfl, rfl, rfl, rfl⟩
  unfold primFailCond at h
  unfold primaryEdgeSampler
  dsimp only
  rcases h with h | h | h
  · rw [h]
  · cases hp : cam.project ((pos (edges.getD
        (selectedEdgeId edges_cdf edge_sel edges.length) defaultEdge)).1)
        ((pos (edges.getD (selectedEdgeId edges_cdf edge_sel edges.length)
          defaultEdge)).2) with
    | none => rfl
    | some pr =>
      cases pr with
      | mk v0_ss v1_ss =>
        simp only [if_pos h]
  · obtain ⟨v0_ss, v1_ss, hproj, hcase⟩ := h
    rw [hproj]
    by_cases hpmf : edges_pmf.getD (selectedEdgeId edges_cdf edge_sel edges.length) 0 ≤ 0
    · simp only [if_pos hpmf]
    · simp only [if_neg hpmf]
      rcases hcase with ⟨hfe, hscr⟩ | ⟨hfe, hscr⟩
      · simp only [hfe, if_pos, hscr]
        simp
      · simp only [hfe, hscr]
        simp

/-- Witness for C6 at a camera whose projection always fails. -/
theorem C6_primary_failure_zeroes_outputs_witness :
    primFailCond ⟨false, fun _ _ => none, fun _ => true, fun _ => v3zero,
        fun _ => ⟨0, 0⟩⟩ (fun _ => (v3zero, v3zero)) [] [] [] 0 0 ∧
    (primaryEdgeSampler ⟨false, fun _ _ => none, fun _ => true, fun _ => v3zero,
        fun _ => ⟨0, 0⟩⟩ (fun _ => (v3zero, v3zero)) [] [] [] 0 0 2
      (fun _ _ _ _ _ => initPrimOut 2 ⟨⟨defaultEdge, ⟨0, 0⟩⟩, zeroRay3, zeroRay3,
        v3zero, v3zero, [], [], zeroRayDiff⟩)
      (fun _ _ _ _ _ => initPrimOut 2 ⟨⟨defaultEdge, ⟨0, 0⟩⟩, zeroRay3, zeroRay3,
        v3zero, v3zero, [], [], zeroRayDiff⟩)
      ⟨⟨defaultEdge, ⟨0, 0⟩⟩, zeroRay3, zeroRay3, v3zero, v3zero, [], [],
        zeroRayDiff⟩ = initPrimOut 2 ⟨⟨defaultEdge, ⟨0, 0⟩⟩, zeroRay3, zeroRay3,
        v3zero, v3zero, [], [], zeroRayDiff⟩ ∧
      (initPrimOut 2 (⟨⟨defaultEdge, ⟨0, 0⟩⟩, zeroRay3, zeroRay3, v3zero, v3zero,
        [], [], zeroRayDiff⟩ : PrimSampleOut)).record = ⟨defaultEdge, ⟨0, 0⟩⟩ ∧
      (initPrimOut 2 (⟨⟨defaultEdge, ⟨0, 0⟩⟩, zeroRay3, zeroRay3, v3zero, v3zero,
        [], [], zeroRayDiff⟩ : PrimSampleOut)).ray_upper = zeroRay3 ∧
      (initPrimOut 2 (⟨⟨defaultEdge, ⟨0, 0⟩⟩, zeroRay3, zeroRay3, v3zero, v3zero,
        [], [], zeroRayDiff⟩ : PrimSampleOut)).ray_lower = zeroRay3 ∧
      (initPrimOut 2 (⟨⟨defaultEdge, ⟨0, 0⟩⟩, zeroRay3, zeroRay3, v3zero, v3zero,
        [], [], zeroRayDiff⟩ : PrimSampleOut)).thr_upper = v3zero ∧
      (initPrimOut 2 (⟨⟨defaultEdge, ⟨0, 0⟩⟩, zeroRay3, zeroRay3, v3zero, v3zero,
        [], [], zeroRayDiff⟩ : PrimSampleOut)).thr_lower = v3zero ∧
      (initPrimOut 2 (⟨⟨defaultEdge, ⟨0, 0⟩⟩, zeroRay3, zeroRay3, v3zero, v3zero,
        [], [], zeroRayDiff⟩ : PrimSampleOut)).chans_upper = List.replicate 2 0 ∧
      (initPrimOut 2 (⟨⟨defaultEdge, ⟨0, 0⟩⟩, zeroRay3, zeroRay3, v3zero, v3zero,
        [], [], zeroRayDiff⟩ : PrimSampleOut)).chans_lower = List.replicate 2 0 ∧
      (initPrimOut 2 (⟨⟨defaultEdge, ⟨0, 0⟩⟩, zeroRay3, zeroRay3, v3zero, v3zero,
        [], [], zeroRayDiff⟩ : PrimSampleOut)).ray_diff =
        (⟨⟨defaultEdge, ⟨0, 0⟩⟩, zeroRay3, zeroRay3, v3zero, v3zero, [], [],
          zeroRayDiff⟩ : PrimSampleOut).ray_diff) := by
  have h : primFailCond ⟨false, fun _ _ => none, fun _ => true, fun _ => v3zero,
      fun _ => ⟨0, 0⟩⟩ (fun _ => (v3zero, v3zero)) [] [] [] 0 0 := Or.inl rfl
  exact ⟨h, C6_primary_failure_zeroes_outputs _ _ _ _ _ _ _ 2 _ _ _ h⟩

theorem ekey_edgeMerge (e0 e1 : Edge) : ekey (edgeMerge e0 e1) = ekey e0 := rfl

theorem edgeEqKey_iff (e0 e1 : Edge) : edgeEqKey e0 e1 = true ↔ ekey e0 = ekey e1 := by
  simp [edgeEqKey, ekey, Prod.ext_iff]

theorem edgeLe_iff (e0 e1 : Edge) : edgeLe e0 e1 = true ↔ keyLe (ekey e0) (ekey e1) := by
  unfold edgeLe edgeLess keyLe ekey
  by_cases h : e1.v0 = e0.v0
  · simp [h]
  · simp [h, Ne.symm h]
    omega

theorem keyLe_trans {a b c : ℤ × ℤ} (h1 : keyLe a b) (h2 : keyLe b c) : keyLe a c := by
  unfold keyLe at *
  omega

theorem keyLe_total (a b : ℤ × ℤ) : keyLe a b ∨ keyLe b a := by
  unfold keyLe
  omega

theorem keyLt_of_keyLe_ne {a b : ℤ × ℤ} (h1 : keyLe a b) (h2 : a ≠ b) : keyLt a b := by
  rcases a with ⟨a1, a2⟩
  rcases b with ⟨b1, b2⟩
  unfold keyLe at h1
  unfold keyLt
  have h2' : ¬(a1 = b1 ∧ a2 = b2) := fun hh => h2 (by rw [hh.1, hh.2])
  dsimp only at h1 ⊢
  omega

theorem keyLt_le_trans {a b c : ℤ × ℤ} (h1 : keyLt a b) (h2 : keyLe b c) : keyLt a c := by
  unfold keyLt at *
  unfold keyLe at h2
  omega

theorem reduceByKey_keys (l : List Edge) :
    (reduceByKey l).map ekey = dedupAdj (l.map ekey) := by
  induction l using reduceByKey.induct with
  | case1 => simp [reduceByKey, dedupAdj]
  | case2 e => simp [reduceByKey, dedupAdj]
  | case3 e0 e1 rest heq ih =>
    rw [reduceByKey, if_pos heq]
    rw [show (e0 :: e1 :: rest).map ekey = ekey e0 :: ekey e1 :: rest.map ekey from rfl]
    rw [dedupAdj, if_pos ((edgeEqKey_iff e0 e1).mp heq)]
    rw [ih]
    rfl
  | case4 e0 e1 rest hne ih =>
    rw [reduceByKey, if_neg hne]
    rw [show (e0 :: e1 :: rest).map ekey = ekey e0 :: ekey e1 :: rest.map ekey from rfl]
    rw [dedupAdj, if_neg (fun h => hne ((edgeEqKey_iff e0 e1).mpr h))]
    rw [show (e0 :: reduceByKey (e1 :: rest)).map ekey
      = ekey e0 :: (reduceByKey (e1 :: rest)).map ekey from rfl]
    rw [ih]
    rfl

theorem mem_dedupAdj (ks : List (ℤ × ℤ)) (a : ℤ × ℤ) : a ∈ dedupAdj ks ↔ a ∈ ks := by
  induction ks using dedupAdj.induct with
  | case1 => simp [dedupAdj]
  | case2 k => simp [dedupAdj]
  | case3 k1 rest ih =>
    rw [dedupAdj, if_pos rfl]
    rw [ih]
    simp
  | case4 k0 k1 rest hne ih =>
    rw [dedupAdj, if_neg hne]
    simp only [List.mem_cons] at ih ⊢
    rw [ih]

theorem dedupAdj_strict_sorted (ks : List (ℤ × ℤ))
    (hs : List.Pairwise keyLe ks) : List.Pairwise keyLt (dedupAdj ks) := by
  induction ks using dedupAdj.induct with
  | case1 => simp [dedupAdj]
  | case2 k => simp [dedupAdj]
  | case3 k1 rest ih =>
    rw [dedupAdj, if_pos rfl]
    exact ih (List.Pairwise.sublist (by simp) hs)
  | case4 k0 k1 rest hne ih =>
    rw [dedupAdj, if_neg hne]
    rcases hs with _ | ⟨hrel, hrest⟩
    have hk01 : keyLt k0 k1 := keyLt_of_keyLe_ne (hrel k1 (by simp)) hne
    rcases hrest with _ | ⟨hrel1, hrest1⟩
    refine List.Pairwise.cons ?_ (ih (List.Pairwise.cons hrel1 hrest1))
    intro x hx
    rw [mem_dedupAdj, List.mem_cons] at hx
    rcases hx with hx | hx
    · subst hx
      exact hk01
    · exact keyLt_le_trans hk01 (hrel1 x hx)

theorem filterKey_cons (k : ℤ × ℤ) (e : Edge) (l : List Edge) :
    filterKey k (e :: l) =
      if ekey e = k then e :: filterKey k l else filterKey k l := by
  by_cases h : ekey e = k <;> simp [filterKey, List.filter_cons, h]

theorem keyLt_ne {a b : ℤ × ℤ} (h : keyLt a b) : b ≠ a := by
  rcases a with ⟨a1, a2⟩
  rcases b with ⟨b1, b2⟩
  unfold keyLt at h
  intro hh
  rw [Prod.mk.injEq] at hh
  dsimp only at h
  omega

theorem reduceByKey_filterKey (k : ℤ × ℤ) (l : List Edge) :
    List.Pairwise keyLe (l.map ekey) →
    filterKey k (reduceByKey l) = runFold (filterKey k l) := by
  induction l using reduceByKey.induct with
  | case1 =>
    intro _
    simp [reduceByKey, filterKey, runFold]
  | case2 e =>
    intro _
    rw [show reduceByKey [e] = [e] by rw [reduceByKey]]
    by_cases h : ekey e = k
    · rw [show filterKey k [e] = [e] by simp [filterKey, h]]
      rfl
    · rw [show filterKey k [e] = [] by simp [filterKey, h]]
      rfl
  | case3 e0 e1 rest heq ih =>
    intro hs
    have hkeq : ekey e0 = ekey e1 := (edgeEqKey_iff e0 e1).mp heq
    rcases hs with _ | ⟨hrel0, hs1⟩
    rcases hs1 with _ | ⟨hrel1, hrest⟩
    have hsm : List.Pairwise keyLe ((edgeMerge e0 e1 :: rest).map ekey) := by
      rw [show (edgeMerge e0 e1 :: rest).map ekey = ekey e0 :: rest.map ekey from rfl]
      refine List.Pairwise.cons ?_ hrest
      intro x hx
      rw [hkeq]
      exact hrel1 x hx
    rw [reduceByKey, if_pos heq, ih hsm]
    by_cases hk : ekey e0 = k
    · rw [show filterKey k (edgeMerge e0 e1 :: rest)
          = edgeMerge e0 e1 :: filterKey k rest by
        rw [filterKey_cons, if_pos (by rw [ekey_edgeMerge]; exact hk)]]
      rw [filterKey_cons, if_pos hk, filterKey_cons, if_pos (hkeq ▸ hk)]
      rfl
    · rw [show filterKey k (edgeMerge e0 e1 :: rest) = filterKey k rest by
        rw [filterKey_cons, if_neg (by rw [ekey_edgeMerge]; exact hk)]]
      rw [filterKey_cons, if_neg hk, filterKey_cons, if_neg (fun hh => hk (hkeq ▸ hh))]
  | case4 e0 e1 rest hne ih =>
    intro hs
    have hkne : ekey e0 ≠ ekey e1 := fun h => hne ((edgeEqKey_iff e0 e1).mpr h)
    rcases hs with _ | ⟨hrel0, hs1⟩
    rw [reduceByKey, if_neg hne]
    rw [filterKey_cons]
    by_cases hk : ekey e0 = k
    · rw [if_pos hk]
      have hlt : keyLt k (ekey e1) :=
        keyLt_of_keyLe_ne (hk ▸ hrel0 (ekey e1) (by simp)) (hk ▸ hkne)
      have hnil : filterKey k (e1 :: rest) = [] := by
        rw [filterKey]
        rw [List.filter_eq_nil_iff]
        intro a ha
        simp only [decide_eq_true_eq]
        rcases List.mem_cons.mp ha with h | h
        · subst h
          exact keyLt_ne hlt
        · rcases hs1 with _ | ⟨hrel1, _⟩
          exact keyLt_ne (keyLt_le_trans hlt (hrel1 (ekey a) (List.mem_map_of_mem ekey h)))
      rw [ih hs1, hnil]
      rw [filterKey_cons, if_pos hk, hnil]
      rfl
    · rw [if_neg hk, ih hs1]
      conv_rhs => rw [filterKey_cons, if_neg hk]

theorem edgeLe_trans : ∀ (a b c : Edge),
    edgeLe a b = true → edgeLe b c = true → edgeLe a c = true :=
  fun a b c h1 h2 => (edgeLe_iff a c).mpr
    (keyLe_trans ((edgeLe_iff a b).mp h1) ((edgeLe_iff b c).mp h2))

theorem edgeLe_total : ∀ (a b : Edge), (edgeLe a b || edgeLe b a) = true := by
  intro a b
  rcases keyLe_total (ekey a) (ekey b) with h | h
  · simp [(edgeLe_iff a b).mpr h]
  · simp [(edgeLe_iff b a).mpr h]

theorem sortEdges_perm (l : List Edge) : (sortEdges l).Perm l :=
  List.mergeSort_perm l edgeLe

theorem sortEdges_keys_sorted (l : List Edge) :
    List.Pairwise keyLe ((sortEdges l).map ekey) :=
  List.Pairwise.map ekey (fun a b h => (edgeLe_iff a b).mp h)
    (List.sorted_mergeSort edgeLe_trans edgeLe_total l)

theorem collect_keys_eq (sid : ℤ) (tris : List Tri) :
    (collectEdges sid tris).map ekey = tris.flatMap keysOfTri := by
  rw [collectEdges, List.map_flatMap]
  have h1 : (fun p : ℕ × Tri => (collectTri sid (p.1 : ℤ) p.2).map ekey)
      = fun p : ℕ × Tri => keysOfTri p.2 := by
    funext p
    rfl
  rw [h1]
  rw [show (fun p : ℕ × Tri => keysOfTri p.2) = fun p : ℕ × Tri => keysOfTri (Prod.snd p)
    from rfl]
  rw [← List.flatMap_map Prod.snd keysOfTri tris.enum, List.enum_map_snd]

theorem mem_collectEdges (sid : ℤ) (tris : List Tri) (e : Edge)
    (h : e ∈ collectEdges sid tris) :
    e.shape_id = sid ∧ e.f1 = -1 ∧
    ∃ j : ℕ, j < tris.length ∧ e.f0 = (j : ℤ) ∧
      ∃ tr ∈ tris, e ∈ collectTri sid (j : ℤ) tr := by
  rw [collectEdges, List.mem_flatMap] at h
  obtain ⟨⟨j, tr⟩, hmem, he⟩ := h
  obtain ⟨hj, htr⟩ := List.mem_enum hmem
  have htr_mem : tr ∈ tris := by
    rw [htr]
    exact List.getElem_mem hj
  have hfields : e.shape_id = sid ∧ e.f0 = (j : ℤ) ∧ e.f1 = -1 := by
    simp only [collectTri, List.mem_cons, List.not_mem_nil, or_false] at he
    rcases he with he | he | he <;> rw [he] <;> exact ⟨rfl, rfl, rfl⟩
  exact ⟨hfields.1, hfields.2.2, j, hj, hfields.2.1, tr, htr_mem, he⟩

theorem collectTri_v0_lt_v1 (sid f : ℤ) (tr : Tri) (e : Edge)
    (h : e ∈ collectTri sid f tr)
    (hnd : tr.i0 ≠ tr.i1 ∧ tr.i1 ≠ tr.i2 ∧ tr.i2 ≠ tr.i0) : e.v0 < e.v1 := by
  simp only [collectTri, List.mem_cons, List.not_mem_nil, or_false] at h
  rcases h with h | h | h
  · rw [h]
    exact min_lt_max.mpr hnd.1
  · rw [h]
    exact min_lt_max.mpr hnd.2.1
  · rw [h]
    exact min_lt_max.mpr hnd.2.2

theorem collectEdges_length (sid : ℤ) (tris : List Tri) :
    (collectEdges sid tris).length = 3 * tris.length := by
  rw [collectEdges, List.length_flatMap]
  have h1 : List.map (List.length ∘ fun p : ℕ × Tri => collectTri sid (p.1 : ℤ) p.2)
      tris.enum = List.replicate tris.enum.length 3 := by
    rw [← List.map_const' tris.enum 3]
    apply List.map_congr_left
    intro p _
    rfl
  rw [h1, List.sum_replicate, List.enum_length, smul_eq_mul]
  omega

theorem C4_edge_extraction_merge (sid : ℤ) (tris : List Tri)
    (hnd : ∀ tr ∈ tris, tr.i0 ≠ tr.i1 ∧ tr.i1 ≠ tr.i2 ∧ tr.i2 ≠ tr.i0) :
    (collectEdges sid tris).length = 3 * tris.length ∧
    (∀ e ∈ collectEdges sid tris, e.shape_id = sid ∧ e.f1 = -1 ∧ e.v0 < e.v1 ∧
      ∃ j : ℕ, j < tris.length ∧ e.f0 = (j : ℤ)) ∧
    List.Pairwise keyLt ((extractMergedEdges sid tris).map ekey) ∧
    (∀ k, k ∈ (extractMergedEdges sid tris).map ekey ↔
      k ∈ (collectEdges sid tris).map ekey) ∧
    (∀ k, (filterKey k (sortEdges (collectEdges sid tris))).Perm
      (filterKey k (collectEdges sid tris))) ∧
    (∀ k a, filterKey k (sortEdges (collectEdges sid tris)) = [a] →
      filterKey k (extractMergedEdges sid tris) = [a]) ∧
    (∀ k a b, filterKey k (sortEdges (collectEdges sid tris)) = [a, b] →
      filterKey k (extractMergedEdges sid tris) =
        [⟨a.shape_id, a.v0, a.v1, a.f0, b.f0⟩]) ∧
    (∀ tris2, tris2.Perm tris →
      (extractMergedEdges sid tris2).map ekey = (extractMergedEdges sid tris).map ekey) := by
  refine ⟨collectEdges_length sid tris, ?_, ?_, ?_, ?_, ?_, ?_, ?_⟩
  · intro e he
    obtain ⟨h1, h2, j, hj, hf0, tr, htr, hetr⟩ := mem_collectEdges sid tris e he
    exact ⟨h1, h2, collectTri_v0_lt_v1 sid (j : ℤ) tr e hetr (hnd tr htr), j, hj, hf0⟩
  · rw [extractMergedEdges, reduceByKey_keys]
    exact dedupAdj_strict_sorted _ (sortEdges_keys_sorted _)
  · intro k
    rw [extractMergedEdges, reduceByKey_keys, mem_dedupAdj]
    exact ((sortEdges_perm _).map ekey).mem_iff
  · intro k
    exact (sortEdges_perm _).filter _
  · intro k a h
    rw [extractMergedEdges, reduceByKey_filterKey k _ (sortEdges_keys_sorted _), h]
    rfl
  · intro k a b h
    rw [extractMergedEdges, reduceByKey_filterKey k _ (sortEdges_keys_sorted _), h]
    rfl
  · intro tris2 hp
    rw [extractMergedEdges, extractMergedEdges, reduceByKey_keys, reduceByKey_keys]
    have p1 : ((sortEdges (collectEdges sid tris2)).map ekey).Perm
        ((collectEdges sid tris2).map ekey) := (sortEdges_perm _).map ekey
    have p2 : ((collectEdges sid tris2).map ekey).Perm
        ((collectEdges sid tris).map ekey) := by
      rw [collect_keys_eq, collect_keys_eq]
      exact List.Perm.flatMap_right keysOfTri hp
    have p3 : ((collectEdges sid tris).map ekey).Perm
        ((sortEdges (collectEdges sid tris)).map ekey) :=
      ((sortEdges_perm _).map ekey).symm
    have heq : (sortEdges (collectEdges sid tris2)).map ekey
        = (sortEdges (collectEdges sid tris)).map ekey :=
      List.eq_of_perm_of_sorted ((p1.trans p2).trans p3)
        (sortEdges_keys_sorted _) (sortEdges_keys_sorted _)
    rw [heq]

theorem C4_edge_extraction_merge_witness :
    (∀ tr ∈ [Tri.mk 0 1 2, Tri.mk 1 2 3],
      tr.i0 ≠ tr.i1 ∧ tr.i1 ≠ tr.i2 ∧ tr.i2 ≠ tr.i0) ∧
    ((collectEdges 0 [Tri.mk 0 1 2, Tri.mk 1 2 3]).length =
      3 * [Tri.mk 0 1 2, Tri.mk 1 2 3].length ∧
    (∀ e ∈ collectEdges 0 [Tri.mk 0 1 2, Tri.mk 1 2 3],
      e.shape_id = 0 ∧ e.f1 = -1 ∧ e.v0 < e.v1 ∧
      ∃ j : ℕ, j < [Tri.mk 0 1 2, Tri.mk 1 2 3].length ∧ e.f0 = (j : ℤ)) ∧
    List.Pairwise keyLt
      ((extractMergedEdges 0 [Tri.mk 0 1 2, Tri.mk 1 2 3]).map ekey) ∧
    (∀ k, k ∈ (extractMergedEdges 0 [Tri.mk 0 1 2, Tri.mk 1 2 3]).map ekey ↔
      k ∈ (collectEdges 0 [Tri.mk 0 1 2, Tri.mk 1 2 3]).map ekey) ∧
    (∀ k, (filterKey k (sortEdges (collectEdges 0 [Tri.mk 0 1 2, Tri.mk 1 2 3]))).Perm
      (filterKey k (collectEdges 0 [Tri.mk 0 1 2, Tri.mk 1 2 3]))) ∧
    (∀ k a, filterKey k (sortEdges (collectEdges 0 [Tri.mk 0 1 2, Tri.mk 1 2 3])) = [a] →
      filterKey k (extractMergedEdges 0 [Tri.mk 0 1 2, Tri.mk 1 2 3]) = [a]) ∧
    (∀ k a b,
      filterKey k (sortEdges (collectEdges 0 [Tri.mk 0 1 2, Tri.mk 1 2 3])) = [a, b] →
      filterKey k (extractMergedEdges 0 [Tri.mk 0 1 2, Tri.mk 1 2 3]) =
        [⟨a.shape_id, a.v0, a.v1, a.f0, b.f0⟩]) ∧
    (∀ tris2, tris2.Perm [Tri.mk 0 1 2, Tri.mk 1 2 3] →
      (extractMergedEdges 0 tris2).map ekey =
        (extractMergedEdges 0 [Tri.mk 0 1 2, Tri.mk 1 2 3]).map ekey)) := by
  have hnd : ∀ tr ∈ [Tri.mk 0 1 2, Tri.mk 1 2 3],
      tr.i0 ≠ tr.i1 ∧ tr.i1 ≠ tr.i2 ∧ tr.i2 ≠ tr.i0 := by decide
  exact ⟨hnd, C4_edge_extraction_merge 0 [Tri.mk 0 1 2, Tri.mk 1 2 3] hnd⟩
